import Mathlib

/-!
Shallow embedding of the miniparquet Parquet reader (src/src/miniparquet.cpp)
and verification of a set of claims about it.

Conventions used throughout:
* Machine integers are modelled as `Nat` with explicit reduction `% 2 ^ w`
  at the points where the C++ performs width-limited arithmetic or stores
  into a fixed-width field.
* Byte buffers and pointer arithmetic are modelled as `List Nat` plus an
  explicit cursor (or by dropping a prefix of the list).  A read or write
  beyond the end of the modelled allocation — undefined behaviour in the
  C++ source — is modelled as a failure (`Option.none`), as are thrown
  `runtime_error`s.
* The dereferenced byte of a `uint8_t` pointer is taken `% 256` / via
  bit-masking exactly where the source casts to `uint8_t`.
-/

namespace MiniParquet

/-- Constant `2 ^ 32`, the modulus of `uint32_t` arithmetic. -/
def pow32 : Nat := 2 ^ 32

/-- Wrapping `uint32_t` subtraction `a - b` (two's complement, modulo `2 ^ 32`). -/
def u32sub (a b : Nat) : Nat := (a % pow32 + pow32 - b % pow32) % pow32

/-- Wrapping `uint32_t` decrement `x--` (used by `GetBatchSpaced` on
`remaining_nulls`, which can underflow). -/
def wrapDec (x : Nat) : Nat := if x == 0 then pow32 - 1 else x - 1

/-- Little-endian assembly of the first `k` bytes of `l` into one value, as in
the loop `current_value_ |= ((uint8_t) *buffer++) << (i * 8)` of
`RleBpDecoder::NextCounts` (each dereferenced byte is cast to `uint8_t`,
hence the `% 256`).  Reading past the end of the allocation is a failure.
The source accumulates through `int` shifts (undefined behaviour once byte 3
has its top bit set); the model takes the defined zero-extension reading,
which agrees with the source wherever the source's behaviour is defined. -/
def readLEValue : List Nat → Nat → Option Nat
  | _, 0 => some 0
  | [], _ + 1 => none
  | b :: rest, k + 1 => (readLEValue rest k).map (fun v => (b % 256) ||| (v <<< 8))

/-- State of `RleBpDecoder` (miniparquet.cpp lines 134-521).  `buffer` is the
readable memory from the current cursor onward; the C++ advances the raw
pointer, modelled by dropping a prefix.  `bufferLen` mirrors the stored
`buffer_len` field, which the source never consults after construction. -/
structure RleBpDecoder where
  buffer : List Nat
  bufferLen : Nat
  bitWidth : Nat
  currentValue : Nat
  repeatCount : Nat
  literalCount : Nat
  byteEncodedLen : Nat
  maxVal : Nat
deriving DecidableEq

/-- Constructor `RleBpDecoder::RleBpDecoder` (lines 139-149): fails when
`bit_width >= 64`; otherwise `byte_encoded_len = (bit_width + 7) / 8` and
`max_val = (1 << bit_width_) - 1`.  The source computes `max_val` in 32-bit
`int` arithmetic and stores it in a `uint32_t` field (undefined behaviour for
`bit_width >= 31`); the model computes the shift exactly and truncates at the
`uint32_t` store, the most charitable defined reading. -/
def mkRleBpDecoder (buffer : List Nat) (bufferLen bitWidth : Nat) : Option RleBpDecoder :=
  if 64 ≤ bitWidth then none
  else some
    { buffer := buffer
      bufferLen := bufferLen
      bitWidth := bitWidth
      currentValue := 0
      repeatCount := 0
      literalCount := 0
      byteEncodedLen := (bitWidth + 7) / 8
      maxVal := (2 ^ bitWidth - 1) % pow32 }

/-- Varint decoder `RleBpDecoder::VarintDecode` (lines 278-295): little-endian
7-bit groups with MSB continuation, accumulated into a `uint32_t`; fails when
the shift would exceed 32 or when the read runs past the input.  Returns the
decoded value and the number of bytes consumed. -/
def varintDecode : List Nat → Nat → Nat → Nat → Option (Nat × Nat)
  | [], _, _, _ => none
  | b :: rest, shift, acc, len =>
    let acc2 := (acc ||| ((b &&& 127) <<< shift)) % pow32
    if b &&& 128 == 0 then some (acc2, len + 1)
    else if 32 < shift + 7 then none
    else varintDecode rest (shift + 7) acc2 (len + 1)

/-- Run-header reader `RleBpDecoder::NextCounts` (lines 299-329): reads a
varint `v`; if `v & 1 = 1` this is a bit-packed run and
`literal_count_ = (v >> 1) * 8` (in `uint32_t`); otherwise an RLE run with
`repeat_count_ = v >> 1` and `current_value_` read as `byte_encoded_len`
little-endian bytes, failing when the value exceeds `max_val`. -/
def nextCounts (d : RleBpDecoder) : Option RleBpDecoder :=
  match varintDecode d.buffer 0 0 0 with
  | none => none
  | some (v, len) =>
    let buf1 := d.buffer.drop len
    if v &&& 1 == 1 then
      some { d with literalCount := ((v >>> 1) * 8) % pow32, buffer := buf1 }
    else
      match readLEValue buf1 d.byteEncodedLen with
      | none => none
      | some val =>
        let cv := val % 2 ^ 64
        if d.maxVal < cv then none
        else some { d with
          repeatCount := v >>> 1
          currentValue := cv
          buffer := buf1.drop d.byteEncodedLen }

/-- Value of `w` bits read LSB-first starting at bit offset `off` of buffer
`buf`, as in the scalar extractor `RleBpDecoder::bitunpack_rev`
(lines 332-342); the Lemire kernels used on the 4-byte path decode the same
little-endian packing 32 values at a time. -/
def bitsLE (buf : List Nat) : Nat → Nat → Nat
  | _, 0 => 0
  | off, w + 1 => ((buf.getD (off / 8) 0 >>> (off % 8)) &&& 1) + 2 * bitsLE buf (off + 1) w

/-- Bit-packed batch reader `RleBpDecoder::BitUnpack` (lines 495-519).  For
4-byte outputs the source rounds the batch up to a multiple of 32 and calls
the width-indexed `unpack32` kernels (which reject widths above 32 and may
read up to the rounded byte count); otherwise it extracts bit by bit.  Both
paths yield the first `count` packed values (truncated to the output element
width) and then advance the cursor by `bit_width_ * count / 8` bytes
(flooring integer division, as in the source).  A read past the end of the
modelled allocation fails. -/
def bitUnpack (elemBytes : Nat) (d : RleBpDecoder) (count : Nat) :
    Option (List Nat × RleBpDecoder) :=
  let w := d.bitWidth
  let vals := (List.range count).map (fun i => bitsLE d.buffer (i * w) w % 2 ^ (8 * elemBytes))
  let dAfter := { d with buffer := d.buffer.drop (w * count / 8) }
  if elemBytes == 4 then
    if 32 < w then none
    else if ((count + 31) / 32) * 32 * w / 8 ≤ d.buffer.length then some (vals, dAfter)
    else none
  else
    if (count * w + 7) / 8 ≤ d.buffer.length then some (vals, dAfter)
    else none

/-- Loop body of `RleBpDecoder::GetBatch` (lines 152-181), with `fuel` an
upper bound on the number of loop iterations (the wrapper `GetBatch` passes
enough fuel for every terminating C++ execution; executions in which the C++
would loop reading ever more memory fail in the model anyway, inside
`nextCounts`).  `vr` is `values_read`, `n` is `batch_size`; `elemBytes` is
`sizeof(T)`.  Returns the decoded values and the final decoder state. -/
def getBatchGo (elemBytes : Nat) : Nat → RleBpDecoder → Nat → Nat →
    Option (List Nat × RleBpDecoder)
  | 0, _, _, _ => none
  | fuel + 1, d, n, vr =>
    if vr < n then
      if 0 < d.repeatCount then
        let rb := min (n - vr) d.repeatCount
        match getBatchGo elemBytes fuel { d with repeatCount := d.repeatCount - rb } n (vr + rb) with
        | none => none
        | some (out, dF) =>
          some (List.replicate rb (d.currentValue % 2 ^ (8 * elemBytes)) ++ out, dF)
      else if 0 < d.literalCount then
        let lb := min (n - vr) d.literalCount
        match bitUnpack elemBytes d lb with
        | none => none
        | some (vals, d1) =>
          match getBatchGo elemBytes fuel { d1 with literalCount := d.literalCount - lb } n (vr + lb) with
          | none => none
          | some (out, dF) => some (vals ++ out, dF)
      else
        match nextCounts d with
        | none => none
        | some d1 => getBatchGo elemBytes fuel d1 n vr
    else some ([], d)

/-- Operation `RleBpDecoder::GetBatch<T>(values, batch_size)`: decode
`batch_size` values.  The C++ writes into a caller-supplied array and returns
the count; the model returns the list of written values together with the
final decoder state. -/
def GetBatch (elemBytes : Nat) (d : RleBpDecoder) (n : Nat) :
    Option (List Nat × RleBpDecoder) :=
  getBatchGo elemBytes (n + d.buffer.length + 1) d n 0

/-- Inner loop of the RLE-run arm of `GetBatchSpaced` (lines 200-215): starting
from `repeat_batch = rb` and the remaining repeat count `rc`, keep consuming
defined-mask entries (`rest`) while `rc > 0` and `vr + rb < n`; a defined
entry consumes one repeat count, an undefined one decrements
`remaining_nulls` (with `uint32_t` wrap).  Returns the final
`(repeat_batch, repeat_count, remaining_nulls, rest)`; reading past the end
of the mask fails. -/
def spacedRepeat (n vr : Nat) : Nat → Nat → Nat → List Nat →
    Option (Nat × Nat × Nat × List Nat)
  | rb, rc, nulls, rest =>
    if 0 < rc ∧ vr + rb < n then
      match rest with
      | [] => none
      | dv :: rest1 =>
        if dv ≠ 0 then spacedRepeat n vr (rb + 1) (rc - 1) nulls rest1
        else spacedRepeat n vr (rb + 1) rc (wrapDec nulls) rest1
    else some (rb, rc, nulls, rest)

/-- Scatter loop of the bit-packed arm of `GetBatchSpaced` (lines 241-250):
after `indices[0]` has been written, scatter `indices[1..lb)` into the
defined output slots, emitting `none` for each undefined slot (the C++
advances `out` without writing).  Returns the emitted slots, the final
`skipped` count and the remaining mask; reading past the end of the mask
fails. -/
def spacedScatter (vals : List Nat) (lb : Nat) : Nat → Nat → List Nat →
    Option (List (Option Nat) × Nat × List Nat)
  | lr, skipped, rest =>
    if lr < lb then
      match rest with
      | [] => none
      | dv :: rest1 =>
        if dv ≠ 0 then
          match spacedScatter vals lb (lr + 1) skipped rest1 with
          | none => none
          | some (out, sk, r2) => some (some (vals.getD lr 0) :: out, sk, r2)
        else
          match spacedScatter vals lb lr (skipped + 1) rest1 with
          | none => none
          | some (out, sk, r2) => some (none :: out, sk, r2)
    else some ([], skipped, rest)

/-- Loop body of `RleBpDecoder::GetBatchSpaced` (lines 183-263), fuelled like
`getBatchGo`.  `rest` is the unconsumed suffix of the `defined` mask
(`d_off` onward), `nulls` is `remaining_nulls`, `vr` is `values_read`.
Output slots are `Option Nat`: `none` marks a slot the C++ skips over without
writing.  Faithful corner cases: inside an RLE run all `repeat_batch` slots
are filled (nulls included); a bit-packed batch is capped at the 1024-entry
scratch buffer; `literal_batch = 0` would read an uninitialised
`indices[0]`, modelled as failure; a mask read past the supplied mask
fails. -/
def spacedGo (elemBytes : Nat) : Nat → RleBpDecoder → Nat → Nat → Nat → List Nat →
    Option (List (Option Nat) × RleBpDecoder)
  | 0, _, _, _, _, _ => none
  | fuel + 1, d, n, nulls, vr, rest =>
    if vr < n then
      match rest with
      | [] => none
      | dv :: rest1 =>
        if dv ≠ 0 then
          match (if d.repeatCount == 0 && d.literalCount == 0 then nextCounts d else some d) with
          | none => none
          | some d1 =>
            if 0 < d1.repeatCount then
              match spacedRepeat n vr 1 (d1.repeatCount - 1) nulls rest1 with
              | none => none
              | some (rb, rc2, nulls2, rest2) =>
                match spacedGo elemBytes fuel { d1 with repeatCount := rc2 } n nulls2 (vr + rb) rest2 with
                | none => none
                | some (out, dF) =>
                  some (List.replicate rb (some (d1.currentValue % 2 ^ (8 * elemBytes))) ++ out, dF)
            else if 0 < d1.literalCount then
              let lb := min (min (u32sub (u32sub n vr) nulls) d1.literalCount) 1024
              if lb == 0 then none
              else
                match bitUnpack elemBytes d1 lb with
                | none => none
                | some (vals, d2) =>
                  match spacedScatter vals lb 1 0 rest1 with
                  | none => none
                  | some (outs, skipped, rest2) =>
                    match spacedGo elemBytes fuel { d2 with literalCount := d1.literalCount - lb }
                        n (u32sub nulls skipped) (vr + lb + skipped) rest2 with
                    | none => none
                    | some (out, dF) =>
                      some ((some (vals.getD 0 0) :: outs) ++ out, dF)
            else
              spacedGo elemBytes fuel d1 n nulls vr rest1
        else
          match spacedGo elemBytes fuel d n (wrapDec nulls) (vr + 1) rest1 with
          | none => none
          | some (out, dF) => some (none :: out, dF)
    else some ([], d)

/-- Operation `RleBpDecoder::GetBatchSpaced<T>(batch_size, null_count,
defined, out)`: decode `batch_size` output slots against the defined mask. -/
def GetBatchSpaced (elemBytes : Nat) (d : RleBpDecoder) (n nulls : Nat)
    (defined : List Nat) : Option (List (Option Nat) × RleBpDecoder) :=
  spacedGo elemBytes (n + d.buffer.length + 1) d n nulls 0 defined

/-- Physical types of the Parquet `Type` enum (all eight members). -/
inductive PhysType
  | BOOLEAN | INT32 | INT64 | INT96 | FLOAT | DOUBLE | BYTE_ARRAY | FIXED_LEN_BYTE_ARRAY
deriving DecidableEq

/-- Page/level encodings of the Parquet `Encoding` enum that the source
dispatches on. -/
inductive Encoding
  | PLAIN | PLAIN_DICTIONARY | RLE | RLE_DICTIONARY | BIT_PACKED | OTHER
deriving DecidableEq

/-- Leaf-column descriptor (`ParquetColumn` plus the two fields of its
`SchemaElement` that the scanner consults: the physical type and the
`type_length` of FIXED_LEN_BYTE_ARRAY columns, with its Thrift isset flag). -/
structure ParquetColumn where
  id : Nat
  ptype : PhysType
  typeLengthIsSet : Bool
  typeLength : Nat
deriving DecidableEq

/-- Decoding target for one column of one row group (`ResultColumn`).
`data` is the raw byte buffer (the C++ reinterprets it per physical type);
`defined` is one byte per row; `string_heap` is the ordered collection of
owned byte sequences. -/
structure ResultColumn where
  col : ParquetColumn
  id : Nat
  data : List Nat
  defined : List Nat
  string_heap : List (List Nat)
deriving DecidableEq

/-- Default `ResultColumn`, used only as the out-of-range placeholder of
`List.getD` in theorem statements. -/
def emptyResultColumn : ResultColumn :=
  { col := { id := 0, ptype := PhysType.BOOLEAN, typeLengthIsSet := false, typeLength := 0 }
    id := 0, data := [], defined := [], string_heap := [] }

/-- Row-group metadata consulted by `ParquetFile::scan`. -/
structure RowGroup where
  num_rows : Nat
deriving DecidableEq

/-- Footer metadata consulted by `ParquetFile::scan`. -/
structure FileMetaData where
  row_groups : List RowGroup
deriving DecidableEq

/-- Scan cursor: its only field is `row_group_idx`. -/
structure ScanState where
  row_group_idx : Nat
deriving DecidableEq

/-- Result chunk: row count of the last scanned row group plus one
`ResultColumn` per leaf column. -/
structure ResultChunk where
  nrows : Nat
  cols : List ResultColumn
deriving DecidableEq

/-- Modelled from the spec: `ByteBuffer::resize` is declared in
`miniparquet.h`, which is not part of `src/`; per spec §3 the buffer is
(re)allocated to the requested size with unspecified contents (modelled as
zero bytes — the theorems below rely only on the resulting length). -/
def byteBufferResize (_buf : List Nat) (newLen : Nat) : List Nat :=
  List.replicate newLen 0

/-- Buffer (re)initialisation `ParquetFile::initialize_column`
(lines 977-1022): `defined` is resized to `num_rows` bytes and zero-filled
by `memset`; `data` is resized to `sizeof(T) * num_rows` bytes per physical
type (`type_length * num_rows` for FIXED_LEN_BYTE_ARRAY, failing when the
schema carries no `type_length`); the string heap is cleared for the two
string types. -/
def initialize_column (col : ResultColumn) (num_rows : Nat) : Option ResultColumn :=
  let col1 := { col with defined := List.replicate num_rows 0 }
  match col.col.ptype with
  | PhysType.BOOLEAN => some { col1 with data := byteBufferResize col.data (1 * num_rows) }
  | PhysType.INT32 => some { col1 with data := byteBufferResize col.data (4 * num_rows) }
  | PhysType.INT64 => some { col1 with data := byteBufferResize col.data (8 * num_rows) }
  | PhysType.INT96 => some { col1 with data := byteBufferResize col.data (12 * num_rows) }
  | PhysType.FLOAT => some { col1 with data := byteBufferResize col.data (4 * num_rows) }
  | PhysType.DOUBLE => some { col1 with data := byteBufferResize col.data (8 * num_rows) }
  | PhysType.BYTE_ARRAY =>
    some { col1 with data := byteBufferResize col.data (8 * num_rows), string_heap := [] }
  | PhysType.FIXED_LEN_BYTE_ARRAY =>
    if col.col.typeLengthIsSet then
      some { col1 with
        data := byteBufferResize col.data (num_rows * col.col.typeLength)
        string_heap := [] }
    else none

/-- Slot width in bytes of each physical type per spec §3 (native width for
numerics and BOOLEAN, a `uint64` heap index for BYTE_ARRAY, `type_length`
raw bytes for FIXED_LEN_BYTE_ARRAY).  Stated from the spec's words and
proved below to match what `initialize_column` allocates. -/
def slotSize (c : ParquetColumn) : Nat :=
  match c.ptype with
  | PhysType.BOOLEAN => 1
  | PhysType.INT32 => 4
  | PhysType.INT64 => 8
  | PhysType.INT96 => 12
  | PhysType.FLOAT => 4
  | PhysType.DOUBLE => 8
  | PhysType.BYTE_ARRAY => 8
  | PhysType.FIXED_LEN_BYTE_ARRAY => c.typeLength

/-- Row-group iterator `ParquetFile::scan` (lines 1024-1040).  The per-column
body `ParquetFile::scan_column` performs file I/O, so it is passed in as the
function argument `scanColumn`; `scan` itself reproduces the source's
control flow: when `row_group_idx` is past the last row group it sets
`nrows = 0` and returns `false`; otherwise it sets `nrows` to the row
group's `num_rows`, runs `initialize_column` then `scanColumn` on every
column in order, increments `row_group_idx` and returns `true`.  A thrown
error is `none`. -/
def scan (scanColumn : ScanState → ResultColumn → Option ResultColumn)
    (fm : FileMetaData) (s : ScanState) (r : ResultChunk) :
    Option (Bool × ScanState × ResultChunk) :=
  if fm.row_groups.length ≤ s.row_group_idx then
    some (false, s, { r with nrows := 0 })
  else
    let rg := fm.row_groups.getD s.row_group_idx { num_rows := 0 }
    match r.cols.mapM (fun c => (initialize_column c rg.num_rows).bind (scanColumn s)) with
    | none => none
    | some cols2 =>
      some (true, { s with row_group_idx := s.row_group_idx + 1 },
        { nrows := rg.num_rows, cols := cols2 })

/-- Column-chunk metadata fields of `ColumnChunk::meta_data` consulted when
computing the read offset (Thrift `i64` offsets, hence `Int`). -/
structure ColumnChunkMetaData where
  data_page_offset : Int
  dictionary_page_offset : Int
  dictionary_page_offset_isset : Bool
deriving DecidableEq

/-- Chunk start offset computed by `ParquetFile::scan_column` (lines 877-884):
`data_page_offset`, overridden by `dictionary_page_offset` when that field is
set and at least 4. -/
def chunk_start (md : ColumnChunkMetaData) : Int :=
  if md.dictionary_page_offset_isset = true ∧ 4 ≤ md.dictionary_page_offset then
    md.dictionary_page_offset
  else md.data_page_offset

/-- Definition-level block of `ColumnScan::scan_data_page` (lines 634-650):
for RLE-encoded levels, read a 4-byte little-endian `def_length` at `cursor`,
build an `RleBpDecoder` of bit width 1 over the page bytes after the length
prefix (passing `def_length` as the never-consulted `buffer_len`), decode
`num_values` one-bit values into the START of `result_col.defined` (offset
0 — the source passes `result_col.defined.ptr` itself, not
`ptr + page_start_row`), and advance the cursor past the length prefix and
`def_length` payload bytes.  Any other encoding throws.  Returns the new
`defined` buffer and cursor. -/
def scan_data_page_deflevels (def_encoding : Encoding) (page : List Nat)
    (cursor num_values : Nat) (defined : List Nat) : Option (List Nat × Nat) :=
  match def_encoding with
  | Encoding.RLE =>
    match readLEValue (page.drop cursor) 4 with
    | none => none
    | some def_length =>
      match mkRleBpDecoder (page.drop (cursor + 4)) def_length 1 with
      | none => none
      | some dec =>
        match GetBatch 1 dec num_values with
        | none => none
        | some (vals, _) =>
          if num_values ≤ defined.length then
            some (vals ++ defined.drop num_values, cursor + 4 + def_length)
          else none
  | _ => none

/-- Restatement of the claimed behaviour of the definition-level block, for
comparison only: identical to `scan_data_page_deflevels` except that the
decoded values land at offset `page_start_row` of the `defined` buffer, as
the spec's §4.3 words say.  Used solely to exhibit the divergence from the
source. -/
def scan_data_page_deflevels_claimed (def_encoding : Encoding) (page : List Nat)
    (cursor num_values page_start_row : Nat) (defined : List Nat) :
    Option (List Nat × Nat) :=
  match def_encoding with
  | Encoding.RLE =>
    match readLEValue (page.drop cursor) 4 with
    | none => none
    | some def_length =>
      match mkRleBpDecoder (page.drop (cursor + 4)) def_length 1 with
      | none => none
      | some dec =>
        match GetBatch 1 dec num_values with
        | none => none
        | some (vals, _) =>
          if page_start_row + num_values ≤ defined.length then
            some (defined.take page_start_row ++ vals ++
              defined.drop (page_start_row + num_values), cursor + 4 + def_length)
          else none
  | _ => none

/-- Count of nonzero `defined` entries at indices `[a, b)`, following the C++
truthiness test `!((uint8_t*) result_col.defined.ptr)[val_offset]`. -/
def definedCountFrom (defined : List Nat) (a b : Nat) : Nat :=
  if a < b then (if defined.getD a 0 ≠ 0 then 1 else 0) + definedCountFrom defined (a + 1) b
  else 0
termination_by b - a

/-- Loop of `ColumnScan::fill_values_plain<T>` (lines 669-684) from position
`voff`: positions whose `defined` byte is zero are skipped (no payload
consumed, slot untouched); a defined position reads `sizeof(T)` = `elemBytes`
little-endian payload bytes at the cursor into slot `page_start_row + voff`
of the slot array `data` and advances the cursor.  Out-of-range reads and
writes fail. -/
def fill_values_plain (elemBytes nv : Nat) (defined page : List Nat) (psr : Nat) :
    Nat → Nat → List Nat → Option (List Nat × Nat)
  | voff, cursor, data =>
    if voff < nv then
      match defined.get? voff with
      | none => none
      | some dv =>
        if dv == 0 then fill_values_plain elemBytes nv defined page psr (voff + 1) cursor data
        else
          match readLEValue (page.drop cursor) elemBytes with
          | none => none
          | some v =>
            if psr + voff < data.length then
              fill_values_plain elemBytes nv defined page psr (voff + 1) (cursor + elemBytes)
                (data.set (psr + voff) v)
            else none
    else some (data, cursor)
termination_by voff => nv - voff

/-- BYTE_ARRAY arm of `ColumnScan::scan_dict_page` (lines 595-611), reading
`k` remaining dictionary entries at `cursor`: each entry is a 4-byte
little-endian length `str_len` followed by `str_len` raw bytes, rejected when
it would cross the page end; the entry is copied into a fresh
`str_len + 1`-byte allocation whose last byte is set to NUL, and appended to
the string heap.  Returns the final heap and cursor. -/
def scan_dict_page_strings (page : List Nat) : Nat → Nat → List (List Nat) →
    Option (List (List Nat) × Nat)
  | cursor, 0, heap => some (heap, cursor)
  | cursor, k + 1, heap =>
    match readLEValue (page.drop cursor) 4 with
    | none => none
    | some strLen =>
      if cursor + 4 + strLen ≤ page.length then
        scan_dict_page_strings page (cursor + 4 + strLen) k
          (heap ++ [((page.drop (cursor + 4)).take strLen) ++ [0]])
      else none

/-- Per-entry string length of `ColumnScan::scan_data_page_plain` (lines
720-735): BYTE_ARRAY entries carry a 4-byte little-endian length prefix
(advancing the cursor past it), FIXED_LEN_BYTE_ARRAY entries use the schema
`type_len`. -/
def plainStringLen (isByteArray : Bool) (typeLen : Nat) (page : List Nat)
    (cursor : Nat) : Option (Nat × Nat) :=
  if isByteArray then (readLEValue (page.drop cursor) 4).map (fun l => (l, cursor + 4))
  else some (typeLen, cursor)

/-- BYTE_ARRAY / FIXED_LEN_BYTE_ARRAY arm of
`ColumnScan::scan_data_page_plain` (lines 718-752) from position `voff`:
undefined positions are skipped; a defined position determines `str_len`
via `plainStringLen`, rejects lengths crossing the page end, appends the
`str_len` payload bytes plus a trailing NUL to the string heap, and stores
the new heap index into slot `page_start_row + voff` of the `uint64` slot
array `data`. -/
def scan_data_page_plain_strings (isByteArray : Bool) (typeLen nv : Nat)
    (defined page : List Nat) (psr : Nat) :
    Nat → Nat → List Nat → List (List Nat) → Option (List Nat × List (List Nat) × Nat)
  | voff, cursor, data, heap =>
    if voff < nv then
      match defined.get? voff with
      | none => none
      | some dv =>
        if dv == 0 then
          scan_data_page_plain_strings isByteArray typeLen nv defined page psr
            (voff + 1) cursor data heap
        else
          match plainStringLen isByteArray typeLen page cursor with
          | none => none
          | some (strLen, cur1) =>
            if cur1 + strLen ≤ page.length then
              if psr + voff < data.length then
                scan_data_page_plain_strings isByteArray typeLen nv defined page psr
                  (voff + 1) (cur1 + strLen)
                  (data.set (psr + voff)
                    ((heap ++ [((page.drop cur1).take strLen) ++ [0]]).length - 1))
                  (heap ++ [((page.drop cur1).take strLen) ++ [0]])
              else none
            else none
    else some (data, heap, cursor)
termination_by voff => nv - voff

/-- Modelled from the spec: `Dictionary<T>::get` is declared in
`miniparquet.h`, which is not part of `src/`.  Spec §3 treats the dictionary
as an ordered, indexable table; lookup outside `[0, dict_size)` is modelled
as failure. -/
def dictionaryGet (dict : List Nat) (off : Nat) : Option Nat :=
  dict.get? off

/-- Loop of `ColumnScan::fill_values_dict<T>` (lines 763-777) from position
`voff`: only positions whose `defined` byte is nonzero look up
`offsets[voff]` in the dictionary and overwrite slot
`page_start_row + voff`; undefined positions leave their slot untouched. -/
def fill_values_dict (nv psr : Nat) (defined offsets dict : List Nat) :
    Nat → List Nat → Option (List Nat)
  | voff, data =>
    if voff < nv then
      match defined.get? voff with
      | none => none
      | some dv =>
        if dv ≠ 0 then
          match offsets.get? voff with
          | none => none
          | some off =>
            match dictionaryGet dict off with
            | none => none
            | some v =>
              if psr + voff < data.length then
                fill_values_dict nv psr defined offsets dict (voff + 1)
                  (data.set (psr + voff) v)
              else none
        else fill_values_dict nv psr defined offsets dict (voff + 1) data
    else some data
termination_by voff => nv - voff

/-- BYTE_ARRAY arm of `ColumnScan::scan_data_page_dict` (lines 841-849) from
position `voff`: every slot `page_start_row + voff` with `voff < nv` is
overwritten with the raw decoded offset `offsets[voff]` — the defined mask
is not consulted and the offset is not checked against the dictionary
size. -/
def scan_data_page_dict_bytearray (nv psr : Nat) (offsets : List Nat) :
    Nat → List Nat → Option (List Nat)
  | voff, data =>
    if voff < nv then
      match offsets.get? voff with
      | none => none
      | some off =>
        if psr + voff < data.length then
          scan_data_page_dict_bytearray nv psr offsets (voff + 1) (data.set (psr + voff) off)
        else none
    else some data
termination_by voff => nv - voff

/-! ## Helper lemmas -/

theorem bitUnpack_length {e : Nat} {d : RleBpDecoder} {c : Nat} {vals : List Nat}
    {d2 : RleBpDecoder} (h : bitUnpack e d c = some (vals, d2)) : vals.length = c := by
  unfold bitUnpack at h
  simp only [] at h
  split at h
  · split at h
    · exact absurd h (by simp)
    · split at h
      · simp only [Option.some.injEq, Prod.mk.injEq] at h
        simp [← h.1]
      · exact absurd h (by simp)
  · split at h
    · simp only [Option.some.injEq, Prod.mk.injEq] at h
      simp [← h.1]
    · exact absurd h (by simp)

theorem getBatchGo_length (e : Nat) : ∀ (f : Nat) (d : RleBpDecoder) (n vr : Nat)
    (out : List Nat) (d2 : RleBpDecoder), vr ≤ n →
    getBatchGo e f d n vr = some (out, d2) → out.length + vr = n := by
  intro f
  induction f with
  | zero => intro d n vr out d2 _ h; exact absurd h (by simp [getBatchGo])
  | succ f ih =>
    intro d n vr out d2 hvr h
    rw [getBatchGo] at h
    simp only [] at h
    split at h
    · rename_i hlt
      split at h
      · rename_i hrep
        split at h
        · exact absurd h (by simp)
        · rename_i out1 dF hrec
          simp only [Option.some.injEq, Prod.mk.injEq] at h
          obtain ⟨h1, h2⟩ := h
          have := ih _ _ _ _ _ (by omega) hrec
          simp [← h1]
          omega
      · split at h
        · rename_i hlit
          split at h
          · exact absurd h (by simp)
          · rename_i vals d1 hbu
            split at h
            · exact absurd h (by simp)
            · rename_i out1 dF hrec
              simp only [Option.some.injEq, Prod.mk.injEq] at h
              obtain ⟨h1, h2⟩ := h
              have hlen := bitUnpack_length hbu
              have := ih _ _ _ _ _ (by omega) hrec
              simp [← h1, hlen]
              omega
        · split at h
          · exact absurd h (by simp)
          · exact ih _ _ _ _ _ hvr h
    · simp only [Option.some.injEq, Prod.mk.injEq] at h
      obtain ⟨h1, h2⟩ := h
      simp [← h1]
      omega

theorem GetBatch_length {e : Nat} {d : RleBpDecoder} {n : Nat} {out : List Nat}
    {d2 : RleBpDecoder} (h : GetBatch e d n = some (out, d2)) : out.length = n := by
  have := getBatchGo_length e _ _ _ _ _ _ (Nat.zero_le n) h
  omega

theorem mapM_option_get {α β : Type} (f : α → Option β) : ∀ (l : List α) (l2 : List β),
    l.mapM f = some l2 → l2.length = l.length ∧
      ∀ i a, l.get? i = some a → ∃ b, f a = some b ∧ l2.get? i = some b := by
  intro l
  induction l with
  | nil =>
    intro l2 h
    simp only [List.mapM_nil, pure, Option.some.injEq] at h
    subst h
    exact ⟨rfl, by intro i a ha; simp at ha⟩
  | cons a l ih =>
    intro l2 h
    rw [List.mapM_cons] at h
    cases hfa : f a with
    | none => simp [hfa, bind, pure] at h
    | some b =>
      simp only [hfa, bind, Option.bind, pure] at h
      cases hrest : l.mapM f with
      | none => rw [hrest] at h; simp at h
      | some bs =>
        rw [hrest] at h
        simp only [Option.some.injEq] at h
        subst h
        obtain ⟨hlen, hget⟩ := ih bs hrest
        refine ⟨by simp [hlen], ?_⟩
        intro i x hx
        cases i with
        | zero =>
          simp only [List.get?_cons_zero, Option.some.injEq] at hx
          subst hx
          exact ⟨b, hfa, rfl⟩
        | succ i =>
          simp only [List.get?_cons_succ] at hx ⊢
          exact hget i x hx

theorem initialize_column_spec {c : ResultColumn} {nr : Nat} {ci : ResultColumn}
    (h : initialize_column c nr = some ci) :
    ci.defined = List.replicate nr 0 ∧ ci.data.length = slotSize c.col * nr := by
  unfold initialize_column at h
  cases hp : c.col.ptype <;> simp only [hp] at h
  case BOOLEAN => simp only [Option.some.injEq] at h; subst h
                  simp [byteBufferResize, slotSize, hp]
  case INT32 => simp only [Option.some.injEq] at h; subst h
                simp [byteBufferResize, slotSize, hp]
  case INT64 => simp only [Option.some.injEq] at h; subst h
                simp [byteBufferResize, slotSize, hp]
  case INT96 => simp only [Option.some.injEq] at h; subst h
                simp [byteBufferResize, slotSize, hp]
  case FLOAT => simp only [Option.some.injEq] at h; subst h
                simp [byteBufferResize, slotSize, hp]
  case DOUBLE => simp only [Option.some.injEq] at h; subst h
                 simp [byteBufferResize, slotSize, hp]
  case BYTE_ARRAY => simp only [Option.some.injEq] at h; subst h
                     simp [byteBufferResize, slotSize, hp]
  case FIXED_LEN_BYTE_ARRAY =>
    split at h
    · simp only [Option.some.injEq] at h
      subst h
      simp [byteBufferResize, slotSize, hp, Nat.mul_comm]
    · exact absurd h (by simp)

/-! ## Claim C1 -/

/-- C1: `ParquetFile::scan` returns `false` with `nrows = 0` when
`row_group_idx` is at or past the number of row groups; otherwise it sets
`nrows` to the current row group's `num_rows`, runs `initialize_column`
(zero-filling the `num_rows`-byte `defined` mask and sizing `data` to
`num_rows` slots of the column's slot width) followed by the column scan on
every column, increments `row_group_idx` by exactly 1, and returns
`true`. -/
theorem C1_scan_spec (scanColumn : ScanState → ResultColumn → Option ResultColumn)
    (fm : FileMetaData) (s : ScanState) (r : ResultChunk) :
    (fm.row_groups.length ≤ s.row_group_idx →
      scan scanColumn fm s r = some (false, s, { r with nrows := 0 })) ∧
    (∀ b s2 r2, s.row_group_idx < fm.row_groups.length →
      scan scanColumn fm s r = some (b, s2, r2) →
      b = true ∧ s2 = { s with row_group_idx := s.row_group_idx + 1 } ∧
      r2.nrows = (fm.row_groups.getD s.row_group_idx { num_rows := 0 }).num_rows ∧
      r2.cols.length = r.cols.length ∧
      ∀ i c, r.cols.get? i = some c →
        ∃ ci c2,
          initialize_column c (fm.row_groups.getD s.row_group_idx { num_rows := 0 }).num_rows
              = some ci ∧
          scanColumn s ci = some c2 ∧ r2.cols.get? i = some c2 ∧
          ci.defined = List.replicate
            (fm.row_groups.getD s.row_group_idx { num_rows := 0 }).num_rows 0 ∧
          ci.data.length = slotSize c.col *
            (fm.row_groups.getD s.row_group_idx { num_rows := 0 }).num_rows) := by
  constructor
  · intro hge
    unfold scan
    rw [if_pos hge]
  · intro b s2 r2 hlt hscan
    unfold scan at hscan
    rw [if_neg (by omega)] at hscan
    simp only [] at hscan
    cases hmap : r.cols.mapM
        (fun c => (initialize_column c
          (fm.row_groups.getD s.row_group_idx { num_rows := 0 }).num_rows).bind
          (scanColumn s)) with
    | none => rw [hmap] at hscan; simp at hscan
    | some cols2 =>
      rw [hmap] at hscan
      simp only [Option.some.injEq, Prod.mk.injEq] at hscan
      obtain ⟨hb, hs2, hr2⟩ := hscan
      obtain ⟨hlen, hget⟩ := mapM_option_get _ _ _ hmap
      refine ⟨hb.symm, hs2.symm, by rw [← hr2], by rw [← hr2]; exact hlen, ?_⟩
      intro i c hc
      obtain ⟨c2, hfc, hc2⟩ := hget i c hc
      cases hinit : initialize_column c
          (fm.row_groups.getD s.row_group_idx { num_rows := 0 }).num_rows with
      | none => rw [hinit] at hfc; simp at hfc
      | some ci =>
        rw [hinit] at hfc
        simp only [Option.some_bind'] at hfc
        obtain ⟨hdef, hdata⟩ := initialize_column_spec hinit
        exact ⟨ci, c2, rfl, hfc, by rw [← hr2]; exact hc2, hdef, hdata⟩

/-- Witness for `C1_scan_spec`: a one-row row group over a single BOOLEAN
column, scanned with the identity column scanner. -/
theorem C1_scan_spec_witness :
    ((0 : Nat) < 1 ∧
      scan (fun _ c => some c) { row_groups := [{ num_rows := 1 }] } { row_group_idx := 0 }
        { nrows := 5, cols := [{ emptyResultColumn with data := [7, 7] }] } =
      some (true, { row_group_idx := 1 },
        { nrows := 1, cols := [{ emptyResultColumn with data := [0], defined := [0] }] })) ∧
    (true = true ∧
      ({ row_group_idx := 1 } : ScanState) = { row_group_idx := 0 + 1 } ∧
      (1 : Nat) = 1 ∧ (1 : Nat) = 1 ∧ True) := by
  refine ⟨⟨by decide, by decide⟩, ?_⟩
  have h := (C1_scan_spec (fun _ c => some c) { row_groups := [{ num_rows := 1 }] }
      { row_group_idx := 0 }
      { nrows := 5, cols := [{ emptyResultColumn with data := [7, 7] }] }).2
      true { row_group_idx := 1 }
      { nrows := 1, cols := [{ emptyResultColumn with data := [0], defined := [0] }] }
      (by decide) (by decide)
  exact ⟨h.1, h.2.1, rfl, rfl, trivial⟩

/-! ## Claim C3 -/

/-- C3: evaluation of `GetBatch` at the failing input of the claim.  With an
exhausted input slice and both run counters zero, the source's `NextCounts`
reads past the slice (it has no bounds check and never returns `false`,
despite its doc comment), so the model fails instead of returning the
partial count 0 that the claim describes; the decoder constructs fine, the
failure is inside `GetBatch`. -/
theorem C3_getbatch_exhausted_input :
    (mkRleBpDecoder [] 0 1).bind (fun d => GetBatch 4 d 1) = none ∧
    (mkRleBpDecoder [] 0 1).isSome = true := by decide

/-! ## Claim C4 -/

/-- C4: `RleBpDecoder::NextCounts` reads a varint `v`; when `v & 1 = 1` it
sets `literal_count = (v >> 1) * 8` (as a `uint32_t`); when `v & 1 = 0` it
sets `repeat_count = v >> 1` and reads the repeated value as
`byte_encoded_len` little-endian bytes zero-extended to 64 bits, failing
exactly when that value exceeds `max_val`. -/
theorem C4_nextCounts_spec (d : RleBpDecoder) (v len : Nat)
    (hvar : varintDecode d.buffer 0 0 0 = some (v, len)) :
    (v &&& 1 = 1 →
      nextCounts d = some { d with literalCount := ((v >>> 1) * 8) % pow32,
                                   buffer := d.buffer.drop len }) ∧
    (v &&& 1 = 0 →
      ∀ val, readLEValue (d.buffer.drop len) d.byteEncodedLen = some val →
        (val % 2 ^ 64 ≤ d.maxVal →
          nextCounts d = some { d with
            repeatCount := v >>> 1
            currentValue := val % 2 ^ 64
            buffer := (d.buffer.drop len).drop d.byteEncodedLen }) ∧
        (d.maxVal < val % 2 ^ 64 → nextCounts d = none)) := by
  constructor
  · intro h1
    unfold nextCounts
    rw [hvar]
    simp only []
    rw [if_pos (by simpa using h1)]
  · intro h0 val hval
    constructor
    · intro hle
      unfold nextCounts
      rw [hvar]
      simp only []
      rw [if_neg (by simp [h0]), hval]
      simp only []
      rw [if_neg (by omega)]
    · intro hgt
      unfold nextCounts
      rw [hvar]
      simp only []
      rw [if_neg (by simp [h0]), hval]
      simp only []
      rw [if_pos hgt]

/-- Witness for `C4_nextCounts_spec`: buffer `[2, 1]` at bit width 1 — varint
2 is an RLE run of length 1 whose value byte 1 is within `max_val = 1`. -/
theorem C4_nextCounts_spec_witness :
    (varintDecode [2, 1] 0 0 0 = some (2, 1) ∧ (2 &&& 1 : Nat) = 0 ∧
      readLEValue [1] 1 = some 1 ∧ (1 % 2 ^ 64 : Nat) ≤ 1) ∧
    nextCounts
      { buffer := [2, 1], bufferLen := 2, bitWidth := 1, currentValue := 0,
        repeatCount := 0, literalCount := 0, byteEncodedLen := 1, maxVal := 1 } =
    some { buffer := [], bufferLen := 2, bitWidth := 1, currentValue := 1,
           repeatCount := 1, literalCount := 0, byteEncodedLen := 1, maxVal := 1 } := by
  refine ⟨⟨by decide, by decide, by decide, by decide⟩, ?_⟩
  have h := ((C4_nextCounts_spec
      { buffer := [2, 1], bufferLen := 2, bitWidth := 1, currentValue := 0,
        repeatCount := 0, literalCount := 0, byteEncodedLen := 1, maxVal := 1 }
      2 1 (by decide)).2 (by decide) 1 (by decide)).1 (by decide)
  exact h

/-! ## Claim C5 -/

/-- C5 counterexample: at the accepted bit width 33 the constructor succeeds
but stores `max_val = 2^32 - 1`, not the claimed exact `2^33 - 1` — the
source computes `(1 << w) - 1` in 32-bit arithmetic and stores it in a
`uint32_t`, which cannot hold `2^33 - 1`. -/
theorem C5_maxval_wraps_at_33 :
    (mkRleBpDecoder [] 0 33).map (fun d => d.maxVal) = some (2 ^ 32 - 1) ∧
    (2 ^ 32 - 1 : Nat) ≠ 2 ^ 33 - 1 := by decide

/-- C5 (amended): construction fails iff `w ≥ 64`; on success
`byte_encoded_len = (w + 7) / 8 = ⌈w / 8⌉` for the whole accepted range,
while `max_val` equals `(2^w - 1)` reduced modulo `2^32` at the `uint32_t`
store (exact only for `w ≤ 32`). -/
theorem C5_mk_spec (buf : List Nat) (bl w : Nat) :
    (64 ≤ w → mkRleBpDecoder buf bl w = none) ∧
    (w < 64 → ∃ d, mkRleBpDecoder buf bl w = some d ∧ d.bitWidth = w ∧
      d.byteEncodedLen = (w + 7) / 8 ∧ w ≤ 8 * d.byteEncodedLen ∧
      8 * d.byteEncodedLen < w + 8 ∧ d.maxVal = (2 ^ w - 1) % pow32 ∧
      d.buffer = buf ∧ d.bufferLen = bl ∧ d.repeatCount = 0 ∧
      d.literalCount = 0 ∧ d.currentValue = 0) := by
  constructor
  · intro h
    unfold mkRleBpDecoder
    rw [if_pos h]
  · intro h
    refine ⟨_, by unfold mkRleBpDecoder; rw [if_neg (by omega)], rfl, rfl,
      ?_, ?_, rfl, rfl, rfl, rfl, rfl, rfl⟩
    · show w ≤ 8 * ((w + 7) / 8)
      omega
    · show 8 * ((w + 7) / 8) < w + 8
      omega

/-- Witness for `C5_mk_spec` at bit width 5. -/
theorem C5_mk_spec_witness :
    (5 : Nat) < 64 ∧ ∃ d, mkRleBpDecoder [9] 1 5 = some d ∧ d.bitWidth = 5 ∧
      d.byteEncodedLen = (5 + 7) / 8 ∧ 5 ≤ 8 * d.byteEncodedLen ∧
      8 * d.byteEncodedLen < 5 + 8 ∧ d.maxVal = (2 ^ 5 - 1) % pow32 ∧
      d.buffer = [9] ∧ d.bufferLen = 1 ∧ d.repeatCount = 0 ∧
      d.literalCount = 0 ∧ d.currentValue = 0 :=
  ⟨by decide, (C5_mk_spec [9] 1 5).2 (by decide)⟩

/-! ## Claim C6 -/

/-- C6: the chunk read of `ParquetFile::scan_column` starts at
`dictionary_page_offset` exactly when that field is set and at least 4, and
at `data_page_offset` otherwise. -/
theorem C6_chunk_start_spec (md : ColumnChunkMetaData) :
    (md.dictionary_page_offset_isset = true ∧ 4 ≤ md.dictionary_page_offset →
      chunk_start md = md.dictionary_page_offset) ∧
    (¬(md.dictionary_page_offset_isset = true ∧ 4 ≤ md.dictionary_page_offset) →
      chunk_start md = md.data_page_offset) := by
  constructor
  · intro h
    unfold chunk_start
    rw [if_pos h]
  · intro h
    unfold chunk_start
    rw [if_neg h]

/-- Witness for `C6_chunk_start_spec`: a chunk whose dictionary page offset 4
is set, and one whose dictionary page offset 2 is below the threshold. -/
theorem C6_chunk_start_spec_witness :
    (((true : Bool) = true ∧ (4 : Int) ≤ 4) ∧
      chunk_start { data_page_offset := 9, dictionary_page_offset := 4,
                    dictionary_page_offset_isset := true } = 4) ∧
    (¬((true : Bool) = true ∧ (4 : Int) ≤ 2) ∧
      chunk_start { data_page_offset := 9, dictionary_page_offset := 2,
                    dictionary_page_offset_isset := true } = 9) :=
  ⟨⟨⟨rfl, by decide⟩,
      (C6_chunk_start_spec { data_page_offset := 9, dictionary_page_offset := 4,
                             dictionary_page_offset_isset := true }).1 ⟨rfl, by decide⟩⟩,
    ⟨by decide,
      (C6_chunk_start_spec { data_page_offset := 9, dictionary_page_offset := 2,
                             dictionary_page_offset_isset := true }).2 (by decide)⟩⟩

/-! ## Claim C8 -/

/-! ## Claim C8 -/

theorem getD_of_get?_some {l : List Nat} {i a : Nat} (h : l.get? i = some a) (d : Nat) :
    l.getD i d = a := by
  rw [List.get?_eq_getElem?] at h
  rw [List.getD_eq_getElem?_getD, h]
  rfl

theorem definedCountFrom_step (defined : List Nat) (a b : Nat) (h : a < b) :
    definedCountFrom defined a b =
      (if defined.getD a 0 ≠ 0 then 1 else 0) + definedCountFrom defined (a + 1) b := by
  rw [definedCountFrom, if_pos h]

theorem definedCountFrom_stop (defined : List Nat) (a b : Nat) (h : ¬a < b) :
    definedCountFrom defined a b = 0 := by
  rw [definedCountFrom, if_neg h]

theorem fill_values_plain_go_spec (e nv : Nat) (defined page : List Nat) (psr : Nat) :
    ∀ (voff cursor : Nat) (data data2 : List Nat) (cur2 : Nat),
      fill_values_plain e nv defined page psr voff cursor data = some (data2, cur2) →
      cur2 = cursor + e * definedCountFrom defined voff nv ∧
      data2.length = data.length ∧
      (∀ j, (j < psr + voff ∨ psr + nv ≤ j) → data2.get? j = data.get? j) ∧
      (∀ i, voff ≤ i → i < nv →
        (defined.get? i = some 0 → data2.get? (psr + i) = data.get? (psr + i)) ∧
        (∀ dv, defined.get? i = some dv → dv ≠ 0 →
          data2.get? (psr + i) =
            readLEValue (page.drop (cursor + e * definedCountFrom defined voff i)) e)) := by
  intro voff cursor data
  induction voff, cursor, data using fill_values_plain.induct e nv defined page psr with
  | case1 voff cursor data hlt hnone =>
    intro data2 cur2 h
    rw [fill_values_plain, if_pos hlt] at h
    rw [hnone] at h
    exact absurd h (by simp)
  | case2 voff cursor data hlt dv hget hdv0 ih =>
    intro data2 cur2 h
    rw [fill_values_plain, if_pos hlt] at h
    rw [hget] at h
    simp only [hdv0, if_pos] at h
    obtain ⟨hcur, hlen, hframe, hper⟩ := ih data2 cur2 h
    have hdvz : dv = 0 := by simpa using hdv0
    have hgd : defined.getD voff 0 = 0 := by rw [getD_of_get?_some hget, hdvz]
    refine ⟨?_, hlen, ?_, ?_⟩
    · rw [definedCountFrom_step _ _ _ hlt, hgd]
      simpa using hcur
    · intro j hj
      exact hframe j (by omega)
    · intro i hvi hinv
      rcases Nat.eq_or_lt_of_le hvi with heq | hlt2
      · subst heq
        constructor
        · intro _
          exact hframe (psr + voff) (by omega)
        · intro dv2 hget2 hne2
          rw [hget] at hget2
          simp only [Option.some.injEq] at hget2
          omega
      · obtain ⟨h0, hv⟩ := hper i (by omega) hinv
        refine ⟨h0, ?_⟩
        intro dv2 hget2 hne2
        rw [hv dv2 hget2 hne2]
        rw [definedCountFrom_step defined voff i (by omega), hgd]
        simp
  | case3 voff cursor data hlt dv hget hdvne hread =>
    intro data2 cur2 h
    rw [fill_values_plain, if_pos hlt] at h
    rw [hget] at h
    simp only [hdvne, if_neg] at h
    rw [hread] at h
    exact absurd h (by simp)
  | case4 voff cursor data hlt dv hget hdvne v hread hbound ih =>
    intro data2 cur2 h
    rw [fill_values_plain, if_pos hlt] at h
    rw [hget] at h
    simp only [hdvne, if_neg] at h
    rw [hread] at h
    simp only [if_pos hbound] at h
    obtain ⟨hcur, hlen, hframe, hper⟩ := ih data2 cur2 h
    have hdvz : dv ≠ 0 := by simpa using hdvne
    have hgd : defined.getD voff 0 = dv := getD_of_get?_some hget 0
    have hdcf : definedCountFrom defined voff nv = 1 + definedCountFrom defined (voff + 1) nv := by
      rw [definedCountFrom_step _ _ _ hlt, hgd, if_pos hdvz]
    refine ⟨?_, by rw [hlen]; simp, ?_, ?_⟩
    · rw [hdcf, Nat.mul_add, Nat.mul_one]
      omega
    · intro j hj
      rw [hframe j (by omega)]
      exact List.get?_set_ne _ _ (by omega)
    · intro i hvi hinv
      rcases Nat.eq_or_lt_of_le hvi with heq | hlt2
      · subst heq
        constructor
        · intro hget2
          rw [hget] at hget2
          simp only [Option.some.injEq] at hget2
          omega
        · intro dv2 _ _
          rw [hframe (psr + voff) (by omega), List.get?_set_eq_of_lt _ hbound,
            definedCountFrom_stop defined voff voff (by omega)]
          simpa using hread.symm
      · obtain ⟨h0, hv⟩ := hper i (by omega) hinv
        have hdcf2 : definedCountFrom defined voff i =
            1 + definedCountFrom defined (voff + 1) i := by
          rw [definedCountFrom_step defined voff i (by omega), hgd, if_pos hdvz]
        constructor
        · intro hget2
          rw [h0 hget2]
          exact List.get?_set_ne _ _ (by omega)
        · intro dv2 hget2 hne2
          rw [hv dv2 hget2 hne2, hdcf2, Nat.mul_add, Nat.mul_one]
          congr 2
          omega
  | case5 voff cursor data hlt dv hget hdvne v hread hbound =>
    intro data2 cur2 h
    rw [fill_values_plain, if_pos hlt] at h
    rw [hget] at h
    simp only [hdvne, if_neg] at h
    rw [hread] at h
    simp only [if_neg hbound] at h
    exact absurd h (by simp)
  | case6 voff cursor data hlt =>
    intro data2 cur2 h
    rw [fill_values_plain, if_neg hlt] at h
    simp only [Option.some.injEq, Prod.mk.injEq] at h
    obtain ⟨h1, h2⟩ := h
    subst h1; subst h2
    refine ⟨by rw [definedCountFrom_stop _ _ _ hlt]; simp, rfl, fun j _ => rfl, ?_⟩
    intro i hvi hinv
    omega

/-- C8: in PLAIN fixed-width decoding (`ColumnScan::fill_values_plain`), a
position whose `defined` byte is zero consumes no payload and leaves its
slot `data[page_start_row + i]` unchanged; only defined positions consume
`sizeof(T)` payload bytes each (the final cursor advance is `sizeof(T)`
times the number of defined positions) and overwrite their slot with the
value read at their payload position.  Slots outside the page's row range
are untouched. -/
theorem C8_fill_values_plain_frame (e nv : Nat) (defined page : List Nat)
    (psr cursor : Nat) (data data2 : List Nat) (cur2 : Nat)
    (h : fill_values_plain e nv defined page psr 0 cursor data = some (data2, cur2)) :
    (∀ i, i < nv → defined.get? i = some 0 →
      data2.get? (psr + i) = data.get? (psr + i)) ∧
    cur2 = cursor + e * definedCountFrom defined 0 nv ∧
    (∀ i, i < nv → ∀ dv, defined.get? i = some dv → dv ≠ 0 →
      data2.get? (psr + i) =
        readLEValue (page.drop (cursor + e * definedCountFrom defined 0 i)) e) ∧
    (∀ j, (j < psr ∨ psr + nv ≤ j) → data2.get? j = data.get? j) := by
  obtain ⟨hcur, _, hframe, hper⟩ := fill_values_plain_go_spec e nv defined page psr 0 cursor
    data data2 cur2 h
  exact ⟨fun i hi h0 => (hper i (Nat.zero_le i) hi).1 h0, hcur,
    fun i hi dv hget hne => (hper i (Nat.zero_le i) hi).2 dv hget hne,
    fun j hj => hframe j (by omega)⟩

/-- Witness for `C8_fill_values_plain_frame`: 2 positions of 2-byte values
with mask `[0, 1]` over payload `[170, 187]` — the undefined slot 0 keeps
its old value 9, slot 1 receives `170 + 256 * 187`, and the cursor advances
by one element. -/
theorem C8_fill_values_plain_frame_witness :
    (fill_values_plain 2 2 [0, 1] [170, 187] 0 0 0 [9, 9] = some ([9, 48042], 2)) ∧
    ((∀ i, i < 2 → [0, 1].get? i = some 0 →
        [9, 48042].get? (0 + i) = [9, 9].get? (0 + i)) ∧
      2 = 0 + 2 * definedCountFrom [0, 1] 0 2 ∧
      (∀ i, i < 2 → ∀ dv, [0, 1].get? i = some dv → dv ≠ 0 →
        [9, 48042].get? (0 + i) =
          readLEValue ([170, 187].drop (0 + 2 * definedCountFrom [0, 1] 0 i)) 2) ∧
      (∀ j, (j < 0 ∨ 0 + 2 ≤ j) → [9, 48042].get? j = [9, 9].get? j)) :=
  ⟨by simp [fill_values_plain, readLEValue],
    C8_fill_values_plain_frame 2 2 [0, 1] [170, 187] 0 0 [9, 9] [9, 48042] 2
      (by simp [fill_values_plain, readLEValue])⟩

/-! ## Claim C9 -/

theorem nul_entry_facts {e bs : List Nat} (h : e = bs ++ [0]) :
    e.length = bs.length + 1 ∧ e.getD bs.length 1 = 0 := by
  subst h
  refine ⟨by simp, ?_⟩
  rw [List.getD_eq_getElem?_getD, List.getElem?_append_right (by omega)]
  simp

theorem scan_dict_page_strings_go_spec (page : List Nat) :
    ∀ (k cursor : Nat) (heap heap2 : List (List Nat)) (cur2 : Nat),
      scan_dict_page_strings page cursor k heap = some (heap2, cur2) →
      ∃ newEntries, heap2 = heap ++ newEntries ∧
        ∀ e ∈ newEntries, ∃ bs, e = bs ++ [0] := by
  intro k
  induction k with
  | zero =>
    intro cursor heap heap2 cur2 h
    rw [scan_dict_page_strings] at h
    simp only [Option.some.injEq, Prod.mk.injEq] at h
    exact ⟨[], by simp [← h.1], by simp⟩
  | succ k ih =>
    intro cursor heap heap2 cur2 h
    rw [scan_dict_page_strings] at h
    cases hread : readLEValue (page.drop cursor) 4 with
    | none => rw [hread] at h; exact absurd h (by simp)
    | some strLen =>
      rw [hread] at h
      simp only [] at h
      split at h
      · obtain ⟨rest, hrest, hP⟩ := ih _ _ _ _ h
        refine ⟨((page.drop (cursor + 4)).take strLen ++ [0]) :: rest, by simp [hrest], ?_⟩
        intro e he
        rcases List.mem_cons.mp he with rfl | he2
        · exact ⟨(page.drop (cursor + 4)).take strLen, rfl⟩
        · exact hP e he2
      · exact absurd h (by simp)

theorem scan_data_page_plain_strings_go_spec (isBA : Bool) (tl nv : Nat)
    (defined page : List Nat) (psr : Nat) :
    ∀ (voff cursor : Nat) (data : List Nat) (heap : List (List Nat))
      (data2 : List Nat) (heap2 : List (List Nat)) (cur2 : Nat),
      scan_data_page_plain_strings isBA tl nv defined page psr voff cursor data heap =
        some (data2, heap2, cur2) →
      ∃ newEntries, heap2 = heap ++ newEntries ∧
        ∀ e ∈ newEntries, ∃ bs, e = bs ++ [0] := by
  intro voff cursor data heap
  induction voff, cursor, data, heap using scan_data_page_plain_strings.induct isBA tl nv defined page psr with
  | case1 voff cursor data heap hlt hnone =>
    intro data2 heap2 cur2 h
    rw [scan_data_page_plain_strings, if_pos hlt] at h
    rw [hnone] at h
    exact absurd h (by simp)
  | case2 voff cursor data heap hlt dv hget hdv0 ih =>
    intro data2 heap2 cur2 h
    rw [scan_data_page_plain_strings, if_pos hlt] at h
    rw [hget] at h
    simp only [hdv0, if_pos] at h
    exact ih _ _ _ h
  | case3 voff cursor data heap hlt dv hget hdvne hmatch =>
    intro data2 heap2 cur2 h
    rw [scan_data_page_plain_strings, if_pos hlt] at h
    rw [hget] at h
    simp only [hdvne, if_neg] at h
    rw [hmatch] at h
    exact absurd h (by simp)
  | case4 voff cursor data heap hlt dv hget hdvne strLen cur1 hmatch hbound hdata ih =>
    intro data2 heap2 cur2 h
    rw [scan_data_page_plain_strings, if_pos hlt] at h
    rw [hget] at h
    simp only [hdvne, if_neg] at h
    rw [hmatch] at h
    simp only [if_pos hbound, if_pos hdata] at h
    obtain ⟨rest, hrest, hP⟩ := ih _ _ _ h
    refine ⟨((page.drop cur1).take strLen ++ [0]) :: rest, by simp [hrest], ?_⟩
    intro e he
    rcases List.mem_cons.mp he with rfl | he2
    · exact ⟨(page.drop cur1).take strLen, rfl⟩
    · exact hP e he2
  | case5 voff cursor data heap hlt dv hget hdvne strLen cur1 hmatch hbound hdata =>
    intro data2 heap2 cur2 h
    rw [scan_data_page_plain_strings, if_pos hlt] at h
    rw [hget] at h
    simp only [hdvne, if_neg] at h
    rw [hmatch] at h
    simp only [if_pos hbound, if_neg hdata] at h
    exact absurd h (by simp)
  | case6 voff cursor data heap hlt dv hget hdvne strLen cur1 hmatch hbound =>
    intro data2 heap2 cur2 h
    rw [scan_data_page_plain_strings, if_pos hlt] at h
    rw [hget] at h
    simp only [hdvne, if_neg] at h
    rw [hmatch] at h
    simp only [if_neg hbound] at h
    exact absurd h (by simp)
  | case7 voff cursor data heap hlt =>
    intro data2 heap2 cur2 h
    rw [scan_data_page_plain_strings, if_neg hlt] at h
    simp only [Option.some.injEq, Prod.mk.injEq] at h
    exact ⟨[], by simp [← h.2.1], by simp⟩

/-- C9: every byte sequence appended to a `ResultColumn`'s string heap —
whether by the BYTE_ARRAY dictionary-page reader or by PLAIN
BYTE_ARRAY / FIXED_LEN_BYTE_ARRAY data-page decoding — is its payload plus
one extra byte holding NUL, so every new heap entry has length
`str_len + 1` and is NUL-terminated at index `str_len`. -/
theorem C9_string_heap_nul_terminated :
    (∀ (page : List Nat) (cursor k : Nat) (heap heap2 : List (List Nat)) (cur2 : Nat),
      scan_dict_page_strings page cursor k heap = some (heap2, cur2) →
      ∃ newEntries, heap2 = heap ++ newEntries ∧
        ∀ e ∈ newEntries, ∃ bs, e = bs ++ [0] ∧ e.length = bs.length + 1 ∧
          e.getD bs.length 1 = 0) ∧
    (∀ (isBA : Bool) (tl nv : Nat) (defined page : List Nat) (psr cursor : Nat)
      (data : List Nat) (heap : List (List Nat)) (data2 : List Nat)
      (heap2 : List (List Nat)) (cur2 : Nat),
      scan_data_page_plain_strings isBA tl nv defined page psr 0 cursor data heap =
        some (data2, heap2, cur2) →
      ∃ newEntries, heap2 = heap ++ newEntries ∧
        ∀ e ∈ newEntries, ∃ bs, e = bs ++ [0] ∧ e.length = bs.length + 1 ∧
          e.getD bs.length 1 = 0) := by
  constructor
  · intro page cursor k heap heap2 cur2 h
    obtain ⟨newEntries, hsplit, hP⟩ := scan_dict_page_strings_go_spec page k cursor heap
      heap2 cur2 h
    refine ⟨newEntries, hsplit, ?_⟩
    intro e he
    obtain ⟨bs, hbs⟩ := hP e he
    obtain ⟨hl, hn⟩ := nul_entry_facts hbs
    exact ⟨bs, hbs, hl, hn⟩
  · intro isBA tl nv defined page psr cursor data heap data2 heap2 cur2 h
    obtain ⟨newEntries, hsplit, hP⟩ := scan_data_page_plain_strings_go_spec isBA tl nv
      defined page psr 0 cursor data heap data2 heap2 cur2 h
    refine ⟨newEntries, hsplit, ?_⟩
    intro e he
    obtain ⟨bs, hbs⟩ := hP e he
    obtain ⟨hl, hn⟩ := nul_entry_facts hbs
    exact ⟨bs, hbs, hl, hn⟩

/-- Witness for `C9_string_heap_nul_terminated`: a dictionary page holding
one empty string and a PLAIN FIXED_LEN_BYTE_ARRAY page holding one 1-byte
value. -/
theorem C9_string_heap_nul_terminated_witness :
    (scan_dict_page_strings [0, 0, 0, 0] 0 1 [] = some ([[0]], 4) ∧
      scan_data_page_plain_strings false 1 1 [1] [65, 0] 0 0 0 [9] [] =
        some ([0], [[65, 0]], 1)) ∧
    ((∃ newEntries, [[0]] = [] ++ newEntries ∧
        ∀ e ∈ newEntries, ∃ bs, e = bs ++ [0] ∧ e.length = bs.length + 1 ∧
          e.getD bs.length 1 = 0) ∧
      (∃ newEntries, [[65, 0]] = [] ++ newEntries ∧
        ∀ e ∈ newEntries, ∃ bs, e = bs ++ [0] ∧ e.length = bs.length + 1 ∧
          e.getD bs.length 1 = 0)) :=
  ⟨⟨by decide, by simp [scan_data_page_plain_strings, plainStringLen]⟩,
    ⟨C9_string_heap_nul_terminated.1 [0, 0, 0, 0] 0 1 [] [[0]] 4 (by decide),
      C9_string_heap_nul_terminated.2 false 1 1 [1] [65, 0] 0 0 [9] [] [0] [[65, 0]] 1
        (by simp [scan_data_page_plain_strings, plainStringLen])⟩⟩

/-! ## Claim C10 -/

theorem scan_data_page_dict_bytearray_go_spec (nv psr : Nat) (offsets : List Nat) :
    ∀ (voff : Nat) (data data2 : List Nat),
      scan_data_page_dict_bytearray nv psr offsets voff data = some data2 →
      data2.length = data.length ∧
      (∀ i, voff ≤ i → i < nv → data2.get? (psr + i) = offsets.get? i) ∧
      (∀ j, j < psr + voff ∨ psr + nv ≤ j → data2.get? j = data.get? j) := by
  intro voff data
  induction voff, data using scan_data_page_dict_bytearray.induct nv psr offsets with
  | case1 voff data hlt hnone =>
    intro data2 h
    rw [scan_data_page_dict_bytearray, if_pos hlt] at h
    rw [hnone] at h
    exact absurd h (by simp)
  | case2 voff data hlt off hoff hbound ih =>
    intro data2 h
    rw [scan_data_page_dict_bytearray, if_pos hlt] at h
    rw [hoff] at h
    simp only [if_pos hbound] at h
    obtain ⟨hlen, hcopy, hframe⟩ := ih _ h
    refine ⟨by rw [hlen]; simp, ?_, ?_⟩
    · intro i hvi hinv
      rcases Nat.eq_or_lt_of_le hvi with heq | hlt2
      · subst heq
        rw [hframe (psr + voff) (by omega), List.get?_set_eq_of_lt _ hbound, hoff]
      · exact hcopy i (by omega) hinv
    · intro j hj
      rw [hframe j (by omega)]
      exact List.get?_set_ne _ _ (by omega)
  | case3 voff data hlt off hoff hbound =>
    intro data2 h
    rw [scan_data_page_dict_bytearray, if_pos hlt] at h
    rw [hoff] at h
    simp only [if_neg hbound] at h
    exact absurd h (by simp)
  | case4 voff data hlt =>
    intro data2 h
    rw [scan_data_page_dict_bytearray, if_neg hlt] at h
    simp only [Option.some.injEq] at h
    subst h
    exact ⟨rfl, fun i hvi hinv => by omega, fun j _ => rfl⟩

theorem fill_values_dict_go_spec (nv psr : Nat) (defined offsets dict : List Nat) :
    ∀ (voff : Nat) (data data2 : List Nat),
      fill_values_dict nv psr defined offsets dict voff data = some data2 →
      data2.length = data.length ∧
      (∀ i, voff ≤ i → i < nv → defined.get? i = some 0 →
        data2.get? (psr + i) = data.get? (psr + i)) ∧
      (∀ j, j < psr + voff ∨ psr + nv ≤ j → data2.get? j = data.get? j) := by
  intro voff data
  induction voff, data using fill_values_dict.induct nv psr defined offsets dict with
  | case1 voff data hlt hnone =>
    intro data2 h
    rw [fill_values_dict, if_pos hlt] at h
    rw [hnone] at h
    exact absurd h (by simp)
  | case2 voff data hlt dv hget hdvne hoffnone =>
    intro data2 h
    rw [fill_values_dict, if_pos hlt] at h
    rw [hget] at h
    simp only [if_pos hdvne] at h
    rw [hoffnone] at h
    exact absurd h (by simp)
  | case3 voff data hlt dv hget hdvne off hoff hdictnone =>
    intro data2 h
    rw [fill_values_dict, if_pos hlt] at h
    rw [hget] at h
    simp only [if_pos hdvne] at h
    rw [hoff] at h
    simp only [] at h
    rw [hdictnone] at h
    exact absurd h (by simp)
  | case4 voff data hlt dv hget hdvne off hoff v hdict hbound ih =>
    intro data2 h
    rw [fill_values_dict, if_pos hlt] at h
    rw [hget] at h
    simp only [if_pos hdvne] at h
    rw [hoff] at h
    simp only [] at h
    rw [hdict] at h
    simp only [if_pos hbound] at h
    obtain ⟨hlen, hskip, hframe⟩ := ih _ h
    refine ⟨by rw [hlen]; simp, ?_, ?_⟩
    · intro i hvi hinv hget2
      rcases Nat.eq_or_lt_of_le hvi with heq | hlt2
      · subst heq
        rw [hget] at hget2
        simp only [Option.some.injEq] at hget2
        exact absurd hget2 hdvne
      · rw [hskip i (by omega) hinv hget2]
        exact List.get?_set_ne _ _ (by omega)
    · intro j hj
      rw [hframe j (by omega)]
      exact List.get?_set_ne _ _ (by omega)
  | case5 voff data hlt dv hget hdvne off hoff v hdict hbound =>
    intro data2 h
    rw [fill_values_dict, if_pos hlt] at h
    rw [hget] at h
    simp only [if_pos hdvne] at h
    rw [hoff] at h
    simp only [] at h
    rw [hdict] at h
    simp only [if_neg hbound] at h
    exact absurd h (by simp)
  | case6 voff data hlt dv hget hdv0 ih =>
    intro data2 h
    rw [fill_values_dict, if_pos hlt] at h
    rw [hget] at h
    simp only [if_neg hdv0] at h
    obtain ⟨hlen, hskip, hframe⟩ := ih _ h
    refine ⟨hlen, ?_, ?_⟩
    · intro i hvi hinv hget2
      rcases Nat.eq_or_lt_of_le hvi with heq | hlt2
      · subst heq
        exact hframe (psr + voff) (by omega)
      · exact hskip i (by omega) hinv hget2
    · intro j hj
      exact hframe j (by omega)
  | case7 voff data hlt =>
    intro data2 h
    rw [fill_values_dict, if_neg hlt] at h
    simp only [Option.some.injEq] at h
    subst h
    exact ⟨rfl, fun i hvi hinv _ => rfl, fun j _ => rfl⟩

/-- C10: in dictionary-coded BYTE_ARRAY decoding
(`ColumnScan::scan_data_page_dict`), every slot `data[page_start_row + i]`
with `i < num_values` is overwritten with the raw decoded offset
`offsets[i]` — the defined mask is never consulted (the loop has no access
to it) and the offset value is not checked against the dictionary size
(`offsets` is arbitrary here); by contrast the numeric path
(`ColumnScan::fill_values_dict`) leaves slots of undefined positions
untouched. -/
theorem C10_bytearray_dict_raw_offsets (nv psr : Nat)
    (offsets defined dict data : List Nat) :
    (∀ data2, scan_data_page_dict_bytearray nv psr offsets 0 data = some data2 →
      ∀ i, i < nv → data2.get? (psr + i) = offsets.get? i) ∧
    (∀ data2, fill_values_dict nv psr defined offsets dict 0 data = some data2 →
      ∀ i, i < nv → defined.get? i = some 0 →
        data2.get? (psr + i) = data.get? (psr + i)) := by
  constructor
  · intro data2 h i hi
    exact (scan_data_page_dict_bytearray_go_spec nv psr offsets 0 data data2 h).2.1
      i (Nat.zero_le i) hi
  · intro data2 h i hi hget
    exact (fill_values_dict_go_spec nv psr defined offsets dict 0 data data2 h).2.1
      i (Nat.zero_le i) hi hget

/-- Witness for `C10_bytearray_dict_raw_offsets`: one undefined position; the
BYTE_ARRAY path still stores the raw offset 5 — an index far beyond the
empty dictionary — while the numeric path leaves the slot's old value 9. -/
theorem C10_bytearray_dict_raw_offsets_witness :
    (scan_data_page_dict_bytearray 1 0 [5] 0 [9] = some [5] ∧
      fill_values_dict 1 0 [0] [5] [] 0 [9] = some [9]) ∧
    ((∀ i, i < 1 → [5].get? (0 + i) = [5].get? i) ∧
      (∀ i, i < 1 → [0].get? i = some 0 → [9].get? (0 + i) = [9].get? i)) := by
  refine ⟨⟨by simp [scan_data_page_dict_bytearray], by simp [fill_values_dict]⟩, ?_, ?_⟩
  · intro i hi
    exact (C10_bytearray_dict_raw_offsets 1 0 [5] [0] [] [9]).1 [5]
      (by simp [scan_data_page_dict_bytearray]) i hi
  · intro i hi hget
    have := (C10_bytearray_dict_raw_offsets 1 0 [5] [0] [] [9]).2 [9]
      (by simp [fill_values_dict]) i hi hget
    simpa using this

/-! ## Claim C2 -/

/-- C2 counterexample: a second data page of a column chunk
(`page_start_row = 1`, two-row `defined` buffer `[0, 0]`) whose RLE stream
encodes a single defined row.  The source writes the decoded bit at offset
0 of the `defined` buffer, producing `[1, 0]`; the claimed destination
offset `page_start_row` would produce `[0, 1]`. -/
theorem C2_deflevels_offset_counterexample :
    scan_data_page_deflevels Encoding.RLE [2, 0, 0, 0, 2, 1] 0 1 [0, 0] =
      some ([1, 0], 6) ∧
    scan_data_page_deflevels_claimed Encoding.RLE [2, 0, 0, 0, 2, 1] 0 1 1 [0, 0] =
      some ([0, 1], 6) ∧
    ([1, 0] : List Nat) ≠ [0, 1] := by decide

/-- C2 (amended): for an RLE-encoded definition-level block, the source reads
a 4-byte little-endian `def_length`, decodes exactly `num_values` one-bit
values with the RLE/BP decoder (constructed over the page bytes after the
length prefix, at bit width 1), writes them at offset 0 of
`result_col.defined` — not at `page_start_row` — and advances the page
cursor past the 4-byte prefix plus `def_length` payload bytes. -/
theorem C2_deflevels_spec (page : List Nat) (cursor num_values : Nat)
    (defined : List Nat) (def_length : Nat) (dec : RleBpDecoder) (vals : List Nat)
    (dF : RleBpDecoder)
    (h1 : readLEValue (page.drop cursor) 4 = some def_length)
    (h2 : mkRleBpDecoder (page.drop (cursor + 4)) def_length 1 = some dec)
    (h3 : GetBatch 1 dec num_values = some (vals, dF))
    (h4 : num_values ≤ defined.length) :
    scan_data_page_deflevels Encoding.RLE page cursor num_values defined =
      some (vals ++ defined.drop num_values, cursor + 4 + def_length) ∧
    vals.length = num_values := by
  refine ⟨?_, GetBatch_length h3⟩
  simp only [scan_data_page_deflevels, h1, h2, h3, h4, if_true]

/-- Witness for `C2_deflevels_spec`: the page of the counterexample, decoded
as the first page (`page_start_row = 0`). -/
theorem C2_deflevels_spec_witness :
    (readLEValue ([2, 0, 0, 0, 2, 1].drop 0) 4 = some 2 ∧
      mkRleBpDecoder ([2, 0, 0, 0, 2, 1].drop (0 + 4)) 2 1 =
        some { buffer := [2, 1], bufferLen := 2, bitWidth := 1, currentValue := 0,
               repeatCount := 0, literalCount := 0, byteEncodedLen := 1, maxVal := 1 } ∧
      GetBatch 1 { buffer := [2, 1], bufferLen := 2, bitWidth := 1, currentValue := 0,
                   repeatCount := 0, literalCount := 0, byteEncodedLen := 1, maxVal := 1 } 1 =
        some ([1], { buffer := [], bufferLen := 2, bitWidth := 1, currentValue := 1,
                     repeatCount := 0, literalCount := 0, byteEncodedLen := 1, maxVal := 1 }) ∧
      1 ≤ ([0, 0] : List Nat).length) ∧
    (scan_data_page_deflevels Encoding.RLE [2, 0, 0, 0, 2, 1] 0 1 [0, 0] =
      some ([1] ++ [0, 0].drop 1, 0 + 4 + 2) ∧ ([1] : List Nat).length = 1) :=
  ⟨⟨by decide, by decide, by decide, by decide⟩,
    C2_deflevels_spec [2, 0, 0, 0, 2, 1] 0 1 [0, 0] 2
      { buffer := [2, 1], bufferLen := 2, bitWidth := 1, currentValue := 0,
        repeatCount := 0, literalCount := 0, byteEncodedLen := 1, maxVal := 1 }
      [1]
      { buffer := [], bufferLen := 2, bitWidth := 1, currentValue := 1,
        repeatCount := 0, literalCount := 0, byteEncodedLen := 1, maxVal := 1 }
      (by decide) (by decide) (by decide) (by decide)⟩

/-! ## Claim C7: supporting lemmas -/

theorem u32sub_small {a b : Nat} (ha : a < pow32) (hb : b ≤ a) : u32sub a b = a - b := by
  unfold u32sub pow32 at *
  rw [Nat.mod_eq_of_lt ha, Nat.mod_eq_of_lt (lt_of_le_of_lt hb ha)]
  omega

theorem bitsLE_drop (l : List Nat) (m : Nat) : ∀ (w off : Nat),
    bitsLE (l.drop m) off w = bitsLE l (8 * m + off) w := by
  intro w
  induction w with
  | zero => intro off; rfl
  | succ w ih =>
    intro off
    rw [bitsLE, bitsLE, ih (off + 1), ← Nat.add_assoc]
    have h1 : (l.drop m).getD (off / 8) 0 = l.getD (m + off / 8) 0 := by
      simp [List.getD_eq_getElem?_getD, List.getElem?_drop]
    have h2 : (8 * m + off) / 8 = m + off / 8 := by omega
    have h3 : (8 * m + off) % 8 = off % 8 := by omega
    rw [h1, h2, h3]

theorem bitUnpack_set_literalCount (e : Nat) (d : RleBpDecoder) (c x : Nat) :
    bitUnpack e { d with literalCount := x } c =
      (bitUnpack e d c).map (fun p => (p.1, { p.2 with literalCount := x })) := by
  unfold bitUnpack
  simp only []
  split
  · split
    · rfl
    · split
      · rfl
      · rfl
  · split
    · rfl
    · rfl

theorem bitUnpack_split_1024 (e : Nat) (d : RleBpDecoder) (count : Nat)
    (hc : 1024 < count) {vals : List Nat} {d2 : RleBpDecoder}
    (h : bitUnpack e d count = some (vals, d2)) :
    bitUnpack e d 1024 =
      some (vals.take 1024, { d with buffer := d.buffer.drop (d.bitWidth * 1024 / 8) }) ∧
    bitUnpack e { d with buffer := d.buffer.drop (d.bitWidth * 1024 / 8) } (count - 1024) =
      some (vals.drop 1024, d2) := by
  have hmulsub : d.bitWidth * (count - 1024) + d.bitWidth * 1024 = d.bitWidth * count := by
    rw [← Nat.mul_add, Nat.sub_add_cancel (by omega)]
  have hmulsub2 : (count - 1024) * d.bitWidth + 1024 * d.bitWidth = count * d.bitWidth := by
    rw [← Nat.add_mul, Nat.sub_add_cancel (by omega)]
  have hround : ((count - 1024 + 31) / 32 * 32) * d.bitWidth + 1024 * d.bitWidth =
      ((count + 31) / 32 * 32) * d.bitWidth := by
    rw [← Nat.add_mul]
    have : (count - 1024 + 31) / 32 * 32 + 1024 = (count + 31) / 32 * 32 := by omega
    rw [this]
  have hvals : ∀ M, ((List.range count).map
      (fun i => bitsLE d.buffer (i * d.bitWidth) d.bitWidth % M)).take 1024 =
      (List.range 1024).map
        (fun i => bitsLE d.buffer (i * d.bitWidth) d.bitWidth % M) := by
    intro M
    rw [← List.map_take, List.take_range, Nat.min_eq_left (by omega)]
  have hrangesplit : List.range count =
      List.range 1024 ++ List.map (fun i => 1024 + i) (List.range (count - 1024)) := by
    conv_lhs => rw [show count = 1024 + (count - 1024) by omega]
    rw [List.range_add]
  have hdrop : ∀ M, ((List.range count).map
      (fun i => bitsLE d.buffer (i * d.bitWidth) d.bitWidth % M)).drop 1024 =
      (List.range (count - 1024)).map
        (fun i => bitsLE (d.buffer.drop (d.bitWidth * 1024 / 8)) (i * d.bitWidth)
          d.bitWidth % M) := by
    intro M
    rw [← List.map_drop, hrangesplit, List.drop_left' (by simp), List.map_map]
    refine List.map_congr_left ?_
    intro i _
    show bitsLE d.buffer ((1024 + i) * d.bitWidth) d.bitWidth % M =
      bitsLE (d.buffer.drop (d.bitWidth * 1024 / 8)) (i * d.bitWidth) d.bitWidth % M
    rw [bitsLE_drop]
    have hidx : 8 * (d.bitWidth * 1024 / 8) + i * d.bitWidth = (1024 + i) * d.bitWidth := by
      have h8 : 8 * (d.bitWidth * 1024 / 8) = d.bitWidth * 1024 := by omega
      rw [h8, Nat.add_mul]
      ring
    rw [hidx]
  have hbufbuf : (d.buffer.drop (d.bitWidth * 1024 / 8)).drop
      (d.bitWidth * (count - 1024) / 8) = d.buffer.drop (d.bitWidth * count / 8) := by
    rw [List.drop_drop]
    have : d.bitWidth * 1024 / 8 + d.bitWidth * (count - 1024) / 8 =
        d.bitWidth * count / 8 := by omega
    rw [this]
  unfold bitUnpack at h ⊢
  simp only [] at h ⊢
  split at h
  · rename_i he4
    split at h
    · exact absurd h (by simp)
    · rename_i hw
      split at h
      · rename_i hbound
        simp only [Option.some.injEq, Prod.mk.injEq] at h
        obtain ⟨hv, hd2⟩ := h
        rw [if_pos he4, if_neg hw, if_pos he4, if_neg hw]
        constructor
        · rw [if_pos (by omega)]
          rw [← hv, hvals]
        · rw [if_pos (by simp only [List.length_drop]; omega)]
          rw [← hv, hdrop, ← hd2]
          simp only [Option.some.injEq, Prod.mk.injEq]
          exact ⟨trivial, by rw [← hbufbuf]⟩
      · exact absurd h (by simp)
  · rename_i he4
    split at h
    · rename_i hbound
      simp only [Option.some.injEq, Prod.mk.injEq] at h
      obtain ⟨hv, hd2⟩ := h
      rw [if_neg he4, if_neg he4]
      constructor
      · rw [if_pos (by omega)]
        rw [← hv, hvals]
      · rw [if_pos (by simp only [List.length_drop]; omega)]
        rw [← hv, hdrop, ← hd2]
        simp only [Option.some.injEq, Prod.mk.injEq]
        exact ⟨trivial, by rw [← hbufbuf]⟩
    · exact absurd h (by simp)

theorem spacedRepeat_ones (n vr : Nat) : ∀ (rc rb nulls m : Nat),
    spacedRepeat n vr rb rc nulls (List.replicate m 1) =
      (if min rc (n - (vr + rb)) ≤ m then
        some (rb + min rc (n - (vr + rb)), rc - min rc (n - (vr + rb)), nulls,
          List.replicate (m - min rc (n - (vr + rb))) 1)
      else none) := by
  intro rc
  induction rc with
  | zero =>
    intro rb nulls m
    rw [spacedRepeat.eq_def]
    simp only []
    rw [if_neg (by omega)]
    simp
  | succ rc ih =>
    intro rb nulls m
    rw [spacedRepeat.eq_def]
    simp only []
    by_cases hcond : 0 < rc + 1 ∧ vr + rb < n
    · rw [if_pos hcond]
      cases m with
      | zero =>
        rw [List.replicate_zero]
        rw [if_neg (by omega)]
      | succ m =>
        rw [List.replicate_succ]
        simp only []
        rw [if_pos (by omega)]
        simp only [Nat.add_sub_cancel]
        rw [ih (rb + 1) nulls m]
        have ht : min (rc + 1) (n - (vr + rb)) = min rc (n - (vr + (rb + 1))) + 1 := by
          omega
        by_cases hle : min rc (n - (vr + (rb + 1))) ≤ m
        · rw [if_pos hle, if_pos (by omega)]
          simp only [Option.some.injEq, Prod.mk.injEq]
          refine ⟨by omega, by omega, trivial, ?_⟩
          rw [ht]
          have : m + 1 - (min rc (n - (vr + (rb + 1))) + 1) =
              m - min rc (n - (vr + (rb + 1))) := by omega
          rw [this]
        · rw [if_neg hle, if_neg (by omega)]
    · rw [if_neg hcond, if_pos (by omega)]
      simp only [Option.some.injEq, Prod.mk.injEq]
      refine ⟨by omega, by omega, trivial, ?_⟩
      have : m - min (rc + 1) (n - (vr + rb)) = m := by omega
      rw [this]

theorem spacedScatter_ones (vals : List Nat) (lb : Nat) : ∀ (m lr skipped : Nat),
    spacedScatter vals lb lr skipped (List.replicate m 1) =
      (if lb - lr ≤ m then
        some ((List.range (lb - lr)).map (fun j => some (vals.getD (lr + j) 0)), skipped,
          List.replicate (m - (lb - lr)) 1)
      else none) := by
  intro m
  induction m with
  | zero =>
    intro lr skipped
    rw [spacedScatter.eq_def]
    simp only []
    by_cases hlr : lr < lb
    · rw [if_pos hlr, List.replicate_zero, if_neg (by omega)]
    · rw [if_neg hlr, if_pos (by omega)]
      have h0 : lb - lr = 0 := by omega
      rw [h0]
      simp
  | succ m ih =>
    intro lr skipped
    rw [spacedScatter.eq_def]
    simp only []
    by_cases hlr : lr < lb
    · rw [if_pos hlr, List.replicate_succ]
      simp only []
      rw [if_pos (by omega)]
      rw [ih (lr + 1) skipped]
      have hsub : lb - lr = (lb - (lr + 1)) + 1 := by omega
      by_cases hle : lb - (lr + 1) ≤ m
      · rw [if_pos hle, if_pos (by omega)]
        simp only [Option.some.injEq, Prod.mk.injEq]
        refine ⟨?_, trivial, ?_⟩
        · rw [hsub, List.range_succ_eq_map, List.map_cons, List.map_map]
          simp only [Nat.add_zero]
          congr 1
          refine List.map_congr_left ?_
          intro j _
          show some (vals.getD (lr + 1 + j) 0) = some (vals.getD (lr + (j + 1)) 0)
          rw [show lr + 1 + j = lr + (j + 1) from by omega]
        · rw [hsub]
          have : m + 1 - (lb - (lr + 1) + 1) = m - (lb - (lr + 1)) := by omega
          rw [this]
      · rw [if_neg hle, if_neg (by omega)]
    · rw [if_neg hlr, if_pos (by omega)]
      have h0 : lb - lr = 0 := by omega
      rw [h0]
      simp

theorem cons_scatter_eq_map_some (vals : List Nat) (lb : Nat)
    (hlen : vals.length = lb) (hpos : 0 < lb) :
    some (vals.getD 0 0) :: (List.range (lb - 1)).map (fun j => some (vals.getD (1 + j) 0)) =
      vals.map some := by
  apply List.ext_getElem?
  intro i
  cases i with
  | zero =>
    cases vals with
    | nil => simp at hlen; omega
    | cons a l => simp [List.getD]
  | succ i =>
    simp only [List.getElem?_cons_succ, List.getElem?_map]
    by_cases hi : i < lb - 1
    · rw [List.getElem?_range hi]
      have hiv : i + 1 < vals.length := by omega
      rw [List.getElem?_eq_getElem hiv]
      simp only [Option.map_some']
      have hgd : vals.getD (1 + i) 0 = vals[i + 1] := by
        rw [List.getD_eq_getElem?_getD, show 1 + i = i + 1 from by omega,
          List.getElem?_eq_getElem hiv]
        rfl
      rw [hgd]
    · rw [List.getElem?_eq_none (by simp; omega), List.getElem?_eq_none (by omega)]
      rfl

theorem u32sub_zero_zero : u32sub 0 0 = 0 := by
  simp [u32sub, pow32]

theorem spacedGo_ones_short (e n : Nat) (hn : n < pow32) : ∀ (f : Nat) (d : RleBpDecoder)
    (vr m : Nat), m < n - vr →
    spacedGo e f d n 0 vr (List.replicate m 1) = none := by
  intro f
  induction f with
  | zero => intro d vr m hm; rfl
  | succ f ih =>
    intro d vr m hm
    rw [spacedGo.eq_def]
    simp only []
    rw [if_pos (by omega)]
    cases m with
    | zero => rw [List.replicate_zero]
    | succ m =>
      rw [List.replicate_succ]
      simp only []
      rw [if_pos (by omega : (1 : Nat) ≠ 0)]
      cases hd1 : (if d.repeatCount == 0 && d.literalCount == 0 then nextCounts d
          else some d) with
      | none => rfl
      | some d1 =>
        simp only []
        by_cases hrep : 0 < d1.repeatCount
        · rw [if_pos hrep, spacedRepeat_ones]
          by_cases hle : min (d1.repeatCount - 1) (n - (vr + 1)) ≤ m
          · rw [if_pos hle]
            simp only []
            rw [ih _ _ _ (by omega)]
          · rw [if_neg hle]
        · by_cases hlit : 0 < d1.literalCount
          · rw [if_neg hrep, if_pos hlit]
            have hu : u32sub (u32sub n vr) 0 = n - vr := by
              rw [u32sub_small hn (by omega), u32sub_small (by omega) (by omega)]
              omega
            rw [hu]
            rw [if_neg (by simp only [beq_iff_eq]; omega)]
            cases hbu : bitUnpack e d1 (min (min (n - vr) d1.literalCount) 1024) with
            | none => rfl
            | some p =>
              obtain ⟨vals, d2⟩ := p
              simp only []
              rw [spacedScatter_ones]
              by_cases hle : min (min (n - vr) d1.literalCount) 1024 - 1 ≤ m
              · rw [if_pos hle]
                simp only []
                rw [u32sub_zero_zero, Nat.add_zero]
                rw [ih _ _ _ (by omega)]
              · rw [if_neg hle]
          · rw [if_neg hrep, if_neg hlit]
            exact ih _ _ _ (by omega)

theorem getBatchGo_literal_step (e fG : Nat) (dm : RleBpDecoder) (n vr lb : Nat)
    (hvr : vr < n) (hrep : dm.repeatCount = 0) (hlit : 0 < dm.literalCount)
    (hlb : lb = min (n - vr) dm.literalCount)
    {vals : List Nat} {d1 : RleBpDecoder}
    (hbu : bitUnpack e dm lb = some (vals, d1))
    {out : List Nat} {dG : RleBpDecoder}
    (hrec : getBatchGo e fG { d1 with literalCount := dm.literalCount - lb } n (vr + lb) =
      some (out, dG)) :
    getBatchGo e (fG + 1) dm n vr = some (vals ++ out, dG) := by
  subst hlb
  rw [getBatchGo, if_pos hvr, if_neg (by omega), if_pos hlit]
  simp only []
  rw [hbu]
  simp only []
  rw [hrec]

theorem spacedGo_ones_eq_getBatchGo (e n : Nat) (hn : n < pow32) :
    ∀ (fS : Nat) (d : RleBpDecoder) (vr : Nat), vr ≤ n →
    ∀ (fG : Nat) (outS : List (Option Nat)) (dS : RleBpDecoder) (outG : List Nat)
      (dG : RleBpDecoder),
      spacedGo e fS d n 0 vr (List.replicate (n - vr) 1) = some (outS, dS) →
      getBatchGo e fG d n vr = some (outG, dG) →
      outS = outG.map some ∧ dS = dG := by
  intro fS
  induction fS with
  | zero =>
    intro d vr _ fG outS dS outG dG hS _
    exact absurd hS (by simp [spacedGo])
  | succ fS ih =>
    intro d vr hvr fG outS dS outG dG hS hG
    by_cases hvrn : vr < n
    case neg =>
      rw [spacedGo.eq_def] at hS
      simp only [] at hS
      rw [if_neg hvrn] at hS
      simp only [Option.some.injEq, Prod.mk.injEq] at hS
      obtain ⟨hS1, hS2⟩ := hS
      cases fG with
      | zero => exact absurd hG (by simp [getBatchGo])
      | succ fG =>
        rw [getBatchGo] at hG
        rw [if_neg hvrn] at hG
        simp only [Option.some.injEq, Prod.mk.injEq] at hG
        obtain ⟨hG1, hG2⟩ := hG
        rw [← hS1, ← hG1, ← hS2, ← hG2]
        exact ⟨rfl, rfl⟩
    case pos =>
      rw [spacedGo.eq_def] at hS
      simp only [] at hS
      rw [if_pos hvrn] at hS
      rw [show n - vr = (n - vr - 1) + 1 from by omega, List.replicate_succ] at hS
      simp only [] at hS
      rw [if_pos (by omega : (1 : Nat) ≠ 0)] at hS
      cases hd1 : (if d.repeatCount == 0 && d.literalCount == 0 then nextCounts d
          else some d) with
      | none => rw [hd1] at hS; exact absurd hS (by simp)
      | some d1 =>
        rw [hd1] at hS
        simp only [] at hS
        have hGd1 : ∃ fG1, getBatchGo e fG1 d1 n vr = some (outG, dG) := by
          by_cases hz : (d.repeatCount == 0 && d.literalCount == 0) = true
          · rw [if_pos hz] at hd1
            cases fG with
            | zero => exact absurd hG (by simp [getBatchGo])
            | succ fG =>
              rw [getBatchGo] at hG
              rw [if_pos hvrn] at hG
              simp only [Bool.and_eq_true, beq_iff_eq] at hz
              rw [if_neg (by omega), if_neg (by omega), hd1] at hG
              exact ⟨fG, hG⟩
          · rw [if_neg hz] at hd1
            simp only [Option.some.injEq] at hd1
            subst hd1
            exact ⟨fG, hG⟩
        obtain ⟨fG1, hG1⟩ := hGd1
        clear hG hd1
        by_cases hrep : 0 < d1.repeatCount
        · -- RLE-run arm
          rw [if_pos hrep, spacedRepeat_ones, if_pos (by omega)] at hS
          simp only [] at hS
          cases fG1 with
          | zero => exact absurd hG1 (by simp [getBatchGo])
          | succ fG1 =>
            rw [getBatchGo] at hG1
            rw [if_pos hvrn, if_pos hrep] at hG1
            simp only [] at hG1
            set t := min (d1.repeatCount - 1) (n - (vr + 1)) with hts
            set rbG := min (n - vr) d1.repeatCount with hrbG
            have hrbt : rbG = 1 + t := by omega
            rw [show d1.repeatCount - 1 - t = d1.repeatCount - rbG from by omega,
              show vr + (1 + t) = vr + rbG from by omega,
              show n - vr - 1 - t = n - (vr + rbG) from by omega] at hS
            cases hSrec : spacedGo e fS
                { d1 with repeatCount := d1.repeatCount - rbG } n 0 (vr + rbG)
                (List.replicate (n - (vr + rbG)) 1) with
            | none => rw [hSrec] at hS; exact absurd hS (by simp)
            | some pr =>
              obtain ⟨out1, dF⟩ := pr
              rw [hSrec] at hS
              simp only [Option.some.injEq, Prod.mk.injEq] at hS
              obtain ⟨hSo, hSd⟩ := hS
              cases hGrec : getBatchGo e fG1
                  { d1 with repeatCount := d1.repeatCount - rbG } n (vr + rbG) with
              | none => rw [hGrec] at hG1; exact absurd hG1 (by simp)
              | some pr2 =>
                obtain ⟨out2, dG2⟩ := pr2
                rw [hGrec] at hG1
                simp only [Option.some.injEq, Prod.mk.injEq] at hG1
                obtain ⟨hGo, hGd⟩ := hG1
                obtain ⟨hih, hihd⟩ := ih _ _ (by omega) _ _ _ _ _ hSrec hGrec
                constructor
                · rw [← hSo, ← hGo, hih, hrbt]
                  rw [List.map_append, List.map_replicate]
                · rw [← hSd, ← hGd, hihd]
        · by_cases hlit : 0 < d1.literalCount
          · -- bit-packed arm
            rw [if_neg hrep, if_pos hlit] at hS
            have hu : u32sub (u32sub n vr) 0 = n - vr := by
              rw [u32sub_small hn (by omega), u32sub_small (by omega) (by omega)]
              omega
            rw [hu] at hS
            rw [if_neg (by simp only [beq_iff_eq]; omega)] at hS
            cases fG1 with
            | zero => exact absurd hG1 (by simp [getBatchGo])
            | succ fG1 =>
              rw [getBatchGo] at hG1
              rw [if_pos hvrn, if_neg hrep, if_pos hlit] at hG1
              simp only [] at hG1
              set lbG := min (n - vr) d1.literalCount with hlbG
              by_cases hcap : lbG ≤ 1024
              · have hlbeq : min (min (n - vr) d1.literalCount) 1024 = lbG := by omega
                rw [hlbeq] at hS
                cases hbu : bitUnpack e d1 lbG with
                | none => rw [hbu] at hS; exact absurd hS (by simp)
                | some p =>
                  obtain ⟨vals, d2⟩ := p
                  rw [hbu] at hS hG1
                  simp only [] at hS hG1
                  rw [spacedScatter_ones, if_pos (by omega)] at hS
                  simp only [] at hS
                  rw [u32sub_zero_zero, Nat.add_zero,
                    show n - vr - 1 - (lbG - 1) = n - (vr + lbG) from by omega] at hS
                  cases hSrec : spacedGo e fS
                      { d2 with literalCount := d1.literalCount - lbG } n 0 (vr + lbG)
                      (List.replicate (n - (vr + lbG)) 1) with
                  | none => rw [hSrec] at hS; exact absurd hS (by simp)
                  | some pr =>
                    obtain ⟨out1, dF⟩ := pr
                    rw [hSrec] at hS
                    simp only [Option.some.injEq, Prod.mk.injEq] at hS
                    obtain ⟨hSo, hSd⟩ := hS
                    cases hGrec : getBatchGo e fG1
                        { d2 with literalCount := d1.literalCount - lbG } n (vr + lbG) with
                    | none => rw [hGrec] at hG1; exact absurd hG1 (by simp)
                    | some pr2 =>
                      obtain ⟨out2, dG2⟩ := pr2
                      rw [hGrec] at hG1
                      simp only [Option.some.injEq, Prod.mk.injEq] at hG1
                      obtain ⟨hGo, hGd⟩ := hG1
                      obtain ⟨hih, hihd⟩ := ih _ _ (by omega) _ _ _ _ _ hSrec hGrec
                      have hhead := cons_scatter_eq_map_some vals lbG
                        (bitUnpack_length hbu) (by omega)
                      constructor
                      · rw [← hSo, hhead, hih, ← List.map_append, hGo]
                      · rw [← hSd, ← hGd, hihd]
              · -- capped at the 1024-entry scratch buffer
                have hlbS1024 : min (min (n - vr) d1.literalCount) 1024 = 1024 := by omega
                rw [hlbS1024] at hS
                cases hbuG : bitUnpack e d1 lbG with
                | none => rw [hbuG] at hG1; exact absurd hG1 (by simp)
                | some p =>
                  obtain ⟨valsG, d2G⟩ := p
                  rw [hbuG] at hG1
                  simp only [] at hG1
                  obtain ⟨hsplit1, hsplit2⟩ := bitUnpack_split_1024 e d1 lbG (by omega) hbuG
                  rw [hsplit1] at hS
                  simp only [] at hS
                  rw [spacedScatter_ones, if_pos (by omega)] at hS
                  simp only [] at hS
                  rw [u32sub_zero_zero, Nat.add_zero,
                    show n - vr - 1 - (1024 - 1) = n - (vr + 1024) from by omega] at hS
                  cases hGrec : getBatchGo e fG1
                      { d2G with literalCount := d1.literalCount - lbG } n (vr + lbG) with
                  | none => rw [hGrec] at hG1; exact absurd hG1 (by simp)
                  | some pr2 =>
                    obtain ⟨outG2, dG2⟩ := pr2
                    rw [hGrec] at hG1
                    simp only [Option.some.injEq, Prod.mk.injEq] at hG1
                    obtain ⟨hGo, hGd⟩ := hG1
                    have hbu2 : bitUnpack e
                        { d1 with
                          buffer := d1.buffer.drop (d1.bitWidth * 1024 / 8)
                          literalCount := d1.literalCount - 1024 } (lbG - 1024) =
                        some (valsG.drop 1024,
                          { d2G with literalCount := d1.literalCount - 1024 }) := by
                      have hset := bitUnpack_set_literalCount e
                        { d1 with buffer := d1.buffer.drop (d1.bitWidth * 1024 / 8) }
                        (lbG - 1024) (d1.literalCount - 1024)
                      rw [hsplit2] at hset
                      simp only [Option.map_some'] at hset
                      exact hset
                    rw [show d1.literalCount - lbG = d1.literalCount - 1024 - (lbG - 1024)
                        from by omega,
                      show vr + lbG = vr + 1024 + (lbG - 1024) from by omega] at hGrec
                    have hGmid : getBatchGo e (fG1 + 1)
                        { d1 with
                          buffer := d1.buffer.drop (d1.bitWidth * 1024 / 8)
                          literalCount := d1.literalCount - 1024 } n (vr + 1024) =
                        some (valsG.drop 1024 ++ outG2, dG2) := by
                      refine getBatchGo_literal_step e fG1 _ n (vr + 1024) (lbG - 1024)
                        (by omega) ?_ ?_ ?_ hbu2 ?_
                      · show d1.repeatCount = 0
                        omega
                      · show 0 < d1.literalCount - 1024
                        omega
                      · show lbG - 1024 = min (n - (vr + 1024)) (d1.literalCount - 1024)
                        omega
                      · exact hGrec
                    cases hSrec : spacedGo e fS
                        { d1 with
                          buffer := d1.buffer.drop (d1.bitWidth * 1024 / 8)
                          literalCount := d1.literalCount - 1024 } n 0 (vr + 1024)
                        (List.replicate (n - (vr + 1024)) 1) with
                    | none => rw [hSrec] at hS; exact absurd hS (by simp)
                    | some pr3 =>
                      obtain ⟨outS2, dF⟩ := pr3
                      rw [hSrec] at hS
                      simp only [Option.some.injEq, Prod.mk.injEq] at hS
                      obtain ⟨hSo, hSd⟩ := hS
                      obtain ⟨hih, hihd⟩ := ih _ _ (by omega) _ _ _ _ _ hSrec hGmid
                      have htklen : (valsG.take 1024).length = 1024 := by
                        have := bitUnpack_length hbuG
                        simp only [List.length_take]
                        omega
                      have hhead := cons_scatter_eq_map_some (valsG.take 1024) 1024
                        htklen (by omega)
                      constructor
                      · rw [← hSo, hhead, hih, ← List.map_append, ← List.append_assoc,
                          List.take_append_drop, hGo]
                      · rw [← hSd, ← hGd, hihd]
          · -- a zero-count run would over-read the mask
            rw [if_neg hrep, if_neg hlit] at hS
            have := spacedGo_ones_short e n hn fS d1 vr (n - vr - 1) (by omega)
            rw [this] at hS
            exact absurd hS (by simp)

/-- C7 counterexample: a stream whose first run indicator is the varint 1 — a
bit-packed run of zero groups (`literal_count = 0`).  `GetBatch` just reads
the next indicator and succeeds, but `GetBatchSpaced` burns one defined-mask
entry on the empty run, drifts past its one-entry mask and reads beyond it,
so with `batch_size = 1`, `null_count = 0` and the all-ones mask `[1]` it
does not return the same decoded value — it fails instead. -/
theorem C7_spaced_zero_run_diverges :
    (mkRleBpDecoder [1, 3, 255, 0, 0, 0] 6 1).bind (fun d => GetBatch 4 d 1) =
      some ([1],
        { buffer := [255, 0, 0, 0], bufferLen := 6, bitWidth := 1, currentValue := 0,
          repeatCount := 0, literalCount := 7, byteEncodedLen := 1, maxVal := 1 }) ∧
    (mkRleBpDecoder [1, 3, 255, 0, 0, 0] 6 1).bind
      (fun d => GetBatchSpaced 4 d 1 0 [1]) = none := by decide

/-- C7 (amended): whenever `GetBatch` succeeds on batch size `n` and
`GetBatchSpaced` with the same batch size, `null_count = 0` and an all-ones
defined mask of exactly `n` entries also succeeds (it can read past that
mask when the stream contains zero-count runs), the spaced call writes the
same `n` values at the same indices `0..n-1` and leaves the decoder in the
same final state. -/
theorem C7_spaced_allones_eq_getbatch (e : Nat) (d : RleBpDecoder) (n : Nat)
    (hn : n < pow32) (outG : List Nat) (dG : RleBpDecoder) (outS : List (Option Nat))
    (dS : RleBpDecoder)
    (hG : GetBatch e d n = some (outG, dG))
    (hS : GetBatchSpaced e d n 0 (List.replicate n 1) = some (outS, dS)) :
    outS = outG.map some ∧ dS = dG ∧ outG.length = n := by
  have h := spacedGo_ones_eq_getBatchGo e n hn (n + d.buffer.length + 1) d 0
    (Nat.zero_le n) (n + d.buffer.length + 1) outS dS outG dG hS hG
  exact ⟨h.1, h.2, GetBatch_length hG⟩

/-- Witness for `C7_spaced_allones_eq_getbatch`: an 8-value literal run
decoded two values deep, by `GetBatch` and by `GetBatchSpaced` under the
mask `[1, 1]`. -/
theorem C7_spaced_allones_eq_getbatch_witness :
    ((2 : Nat) < pow32 ∧
      GetBatch 4
        { buffer := [3, 255, 0, 0, 0], bufferLen := 5, bitWidth := 1, currentValue := 0,
          repeatCount := 0, literalCount := 0, byteEncodedLen := 1, maxVal := 1 } 2 =
        some ([1, 1],
          { buffer := [255, 0, 0, 0], bufferLen := 5, bitWidth := 1, currentValue := 0,
            repeatCount := 0, literalCount := 6, byteEncodedLen := 1, maxVal := 1 }) ∧
      GetBatchSpaced 4
        { buffer := [3, 255, 0, 0, 0], bufferLen := 5, bitWidth := 1, currentValue := 0,
          repeatCount := 0, literalCount := 0, byteEncodedLen := 1, maxVal := 1 } 2 0
        (List.replicate 2 1) =
        some ([some 1, some 1],
          { buffer := [255, 0, 0, 0], bufferLen := 5, bitWidth := 1, currentValue := 0,
            repeatCount := 0, literalCount := 6, byteEncodedLen := 1, maxVal := 1 })) ∧
    ([some 1, some 1] = ([1, 1] : List Nat).map some ∧
      ({ buffer := [255, 0, 0, 0], bufferLen := 5, bitWidth := 1, currentValue := 0,
         repeatCount := 0, literalCount := 6, byteEncodedLen := 1,
         maxVal := 1 } : RleBpDecoder) =
        { buffer := [255, 0, 0, 0], bufferLen := 5, bitWidth := 1, currentValue := 0,
          repeatCount := 0, literalCount := 6, byteEncodedLen := 1, maxVal := 1 } ∧
      ([1, 1] : List Nat).length = 2) :=
  ⟨⟨by decide, by decide, by decide⟩,
    C7_spaced_allones_eq_getbatch 4
      { buffer := [3, 255, 0, 0, 0], bufferLen := 5, bitWidth := 1, currentValue := 0,
        repeatCount := 0, literalCount := 0, byteEncodedLen := 1, maxVal := 1 } 2
      (by decide) [1, 1] _ [some 1, some 1] _ (by decide) (by decide)⟩

end MiniParquet
